import Mathlib

/-!
# Verification of the `compare_structures` structural-diff engine

This file gives a shallow embedding, in Lean 4, of the Python comparison
engine in `compare_structures.py` (package `compare_structures_py`), and
proves/refutes the specification claims about it.

Modelling conventions:

* JSON-like runtime values are modelled by the inductive type `Value`
  (null / bool / int / float / str / list / dict).  A Python float is either
  IEEE NaN, a signed infinity, or a finite value represented by its *exact*
  rational magnitude (`PyFloat`): every finite IEEE double is such a
  rational, NaN compares unequal to everything including itself, and numeric
  cross-type equality (`1 == 1.0 == True`) follows Python.  Decimal literals
  (`float(s)`) and float-to-string rendering are modelled by exact decimal
  arithmetic, which agrees with CPython on every value whose text fits in an
  IEEE double without rounding; the special spellings `inf`/`nan` of
  `float(s)` and the `OverflowError` of `int(inf)` (reachable only through
  float-containing type groups, which no claim exercises) are approximated
  by a parse/conversion failure.
* Python `bool` is a subclass of `int`: `isinstance(True, int)` holds,
  `True == 1`, but `type(True) is bool`.  The embedding keeps separate
  constructors and reproduces those facts in `pyIsInstInt`, `pyEq` and
  `typeOf`.
* Python dicts are modelled as association lists with distinct keys
  (`wfValue` states well-formedness); dict equality and the engine's
  key lookups follow Python semantics on such values.
* A difference record is modelled by its kind and its path string
  (`Diff`); the human-readable payload text produced by the formatter
  helpers (`_type_detail`, `_format_value`, `_truncate`) carries no
  information used by any claim and is elided.
* `str.strip`/`int(...)` whitespace handling, `str.isdigit` and decimal
  parsing are modelled over ASCII; the engine's behaviour on exotic Unicode
  numerics is outside the scope of the claims.
* `deepcopy` of immutable values is the identity and is elided.
* Recursion in the engine goes through the top-level `compare_structures`,
  so a nested call whose path is the *empty string* (reachable only through
  empty dict keys at the root) re-runs the root type validation and can
  raise.  `compareRoot`/`entriesRoot` model that re-validating spine;
  `compareCore` models calls with a nonempty path, which never re-validate.
-/

set_option linter.unusedVariables false
set_option linter.unnecessarySeqFocus false
set_option linter.unreachableTactic false
set_option linter.unusedTactic false

/-- A Python `float`: IEEE NaN, a signed infinity, or a finite value given
by its exact rational magnitude (every finite IEEE double is a rational). -/
inductive PyFloat where
  | nan : PyFloat
  | inf (pos : Bool) : PyFloat
  | finite (q : Rat) : PyFloat
deriving DecidableEq, Repr

/-- JSON-like runtime values: the data model of the comparison engine. -/
inductive Value where
  | null : Value
  | bool (b : Bool) : Value
  | int (n : Int) : Value
  | float (f : PyFloat) : Value
  | str (s : String) : Value
  | list (xs : List Value) : Value
  | map (kvs : List (String × Value)) : Value
deriving Inhabited, Repr

/-- Python runtime type tags, as produced by `type(x)` (note that
`type(True)` is `bool`, not `int`). -/
inductive PyType where
  | noneT | boolT | intT | floatT | strT | listT | dictT
deriving DecidableEq, Repr

instance : BEq PyType := ⟨fun a b => decide (a = b)⟩

/-- `type(v)` for an embedded value. -/
def typeOf : Value → PyType
  | .null => .noneT
  | .bool _ => .boolT
  | .int _ => .intT
  | .float _ => .floatT
  | .str _ => .strT
  | .list _ => .listT
  | .map _ => .dictT

/-- `isinstance(v, dict)`. -/
def Value.isDict : Value → Bool
  | .map _ => true
  | _ => false

/-- `isinstance(v, list)`. -/
def Value.isList : Value → Bool
  | .list _ => true
  | _ => false

/-- `isinstance(v, (dict, list))`. -/
def Value.isCont (v : Value) : Bool := v.isDict || v.isList

/-- `v is None`. -/
def Value.isNull : Value → Bool
  | .null => true
  | _ => false

/-- `isinstance(v, float)`. -/
def Value.isFloat : Value → Bool
  | .float _ => true
  | _ => false

/-- `isinstance(v, int)`; Python booleans are instances of `int`. -/
def pyIsInstInt : Value → Bool
  | .int _ => true
  | .bool _ => true
  | _ => false

/-- `isinstance(v, (int, float))`. -/
def pyIsInstNum (v : Value) : Bool := pyIsInstInt v || v.isFloat

/-- The integer denotation of a Python number (`True == 1`, `False == 0`). -/
def numVal : Value → Int
  | .int n => n
  | .bool b => if b then 1 else 0
  | _ => 0

/-- Python `==` on two floats: NaN is unequal to everything, itself
included. -/
def pyEqFloat : PyFloat → PyFloat → Bool
  | .finite q, .finite r => q == r
  | .inf p, .inf p' => p == p'
  | _, _ => false

/-- Python `==` between a float and an integer value. -/
def floatEqInt : PyFloat → Int → Bool
  | .finite q, n => q == (n : Rat)
  | _, _ => false

/-- First binding of key `k` in a dict's entry list (`d[k]` / `k in d`). -/
def lookupVal (k : String) : List (String × Value) → Option Value
  | [] => none
  | (k', v) :: rest => if k' = k then some v else lookupVal k rest

mutual
/-- Python `==` on embedded values: numeric cross-equality between `bool`
and `int`, structural equality of lists, and key-set based equality of
dicts. -/
def pyEq : Value → Value → Bool
  | .null, .null => true
  | .bool a, .bool b => a == b
  | .bool a, .int n => (if a then (1 : Int) else 0) == n
  | .int n, .bool b => n == (if b then (1 : Int) else 0)
  | .int m, .int n => m == n
  | .float f, .float g => pyEqFloat f g
  | .float f, .int n => floatEqInt f n
  | .float f, .bool b => floatEqInt f (if b then 1 else 0)
  | .int n, .float f => floatEqInt f n
  | .bool b, .float f => floatEqInt f (if b then 1 else 0)
  | .str s, .str t => s == t
  | .list xs, .list ys => pyEqList xs ys
  | .map a, .map b => a.length == b.length && pyEqEntries a b
  | _, _ => false

/-- Elementwise Python `==` on lists of equal length. -/
def pyEqList : List Value → List Value → Bool
  | [], [] => true
  | x :: xs, y :: ys => pyEq x y && pyEqList xs ys
  | _, _ => false

/-- Every binding of the first dict is present (up to `==`) in the second. -/
def pyEqEntries : List (String × Value) → List (String × Value) → Bool
  | [], _ => true
  | (k, v) :: rest, b =>
    (match lookupVal k b with
     | some w => pyEq v w
     | none => false) && pyEqEntries rest b
end

/-- The keys of a dict's entry list are pairwise distinct. -/
def nodupKeys : List (String × Value) → Bool
  | [] => true
  | (k, _) :: rest => !((rest.map Prod.fst).contains k) && nodupKeys rest

mutual
/-- Well-formedness: every dict node has pairwise-distinct keys (true of
every Python dict). -/
def wfValue : Value → Bool
  | .list xs => wfList xs
  | .map kvs => nodupKeys kvs && wfEntries kvs
  | _ => true

def wfList : List Value → Bool
  | [] => true
  | x :: xs => wfValue x && wfList xs

def wfEntries : List (String × Value) → Bool
  | [] => true
  | (_, v) :: rest => wfValue v && wfEntries rest
end

mutual
/-- `noNan v` holds when no `float('nan')` occurs anywhere inside `v`.
NaN is the one Python value for which `x != x`, so deep self-comparison is
the identity only on NaN-free structures. -/
def noNan : Value → Bool
  | .float .nan => false
  | .list xs => noNanList xs
  | .map kvs => noNanEntries kvs
  | _ => true

def noNanList : List Value → Bool
  | [] => true
  | x :: xs => noNan x && noNanList xs

def noNanEntries : List (String × Value) → Bool
  | [] => true
  | (_, v) :: rest => noNan v && noNanEntries rest
end

/-! ## Strings, numbers and paths -/

/-- Decimal digits of a natural number, most significant first (the `fuel`
argument only drives structural termination; it is never exhausted when it
starts at `n`). -/
def natDigitsGo : Nat → Nat → List Char
  | 0, n => [Char.ofNat (48 + n % 10)]
  | fuel + 1, n =>
    if n < 10 then [Char.ofNat (48 + n)]
    else natDigitsGo fuel (n / 10) ++ [Char.ofNat (48 + n % 10)]

/-- Decimal digits of a natural number, most significant first. -/
def natDigits (n : Nat) : List Char := natDigitsGo n n

/-- Decimal rendering of a natural number (Python `f"{i}"` for an index). -/
def natStr (n : Nat) : String := ⟨natDigits n⟩

/-- Decimal rendering of an integer (Python `str(n)` for an `int`). -/
def intStr (n : Int) : String :=
  if n < 0 then "-" ++ natStr n.natAbs else natStr n.natAbs

/-- The list-element path `f"{path}[{i}]"`. -/
def elemPath (path : String) (i : Nat) : String :=
  path ++ "[" ++ natStr i ++ "]"

/-- Python `"x.y".split(".")`: split at every dot, keeping empty pieces
(`"".split(".") == [""]`). -/
def splitDots : List Char → List (List Char)
  | [] => [[]]
  | c :: rest =>
    match splitDots rest with
    | [] => [[]]
    | s :: ss => if c = '.' then [] :: s :: ss else (c :: s) :: ss

/-- The wildcard suffix `[*]` of an exclusion-pattern segment. -/
def wildSuffix : List Char := ['[', '*', ']']

/-- One segment comparison of `_should_exclude`: a wildcard segment
`base[*]` matches exactly the bare `base`, any other segment matches only
itself. -/
def segMatchCode (part cleanSeg : List Char) : Bool :=
  if wildSuffix.isSuffixOf part then cleanSeg == part.take (part.length - 3)
  else part == cleanSeg

/-- `_should_exclude(clean_path, exclude_fields)`: some pattern has at
least as many dot-segments as the path and agrees with every path
segment. -/
def shouldExclude (cleanPath : String) (excludeFields : List String) : Bool :=
  excludeFields.any fun field =>
    let fieldParts := splitDots field.data
    let cleanParts := splitDots cleanPath.data
    if fieldParts.length < cleanParts.length then false
    else (cleanParts.zip fieldParts).all fun cp => segMatchCode cp.2 cp.1

/-- Attempt to read the regex `\['(\d+)'\]` at the head of the string:
returns the digits and the remainder after the closing bracket. -/
def tryPat : List Char → Option (List Char × List Char)
  | '[' :: '\'' :: rest =>
    let ds := rest.takeWhile Char.isDigit
    match rest.dropWhile Char.isDigit with
    | '\'' :: ']' :: rest3 => if ds.isEmpty then none else some (ds, rest3)
    | _ => none
  | _ => none

theorem tryPat_length {l : List Char} {ds r : List Char}
    (h : tryPat l = some (ds, r)) : r.length < l.length := by
  match l with
  | [] => simp [tryPat] at h
  | [c] => simp [tryPat] at h
  | c :: c' :: rest =>
    simp only [tryPat] at h
    split at h
    · rename_i heq
      cases heq
      split at h
      · rename_i rest3 hdrop
        split at h
        · exact absurd h (by simp)
        · have hlen : (rest.dropWhile Char.isDigit).length ≤ rest.length :=
            (List.dropWhile_sublist _).length_le
          rw [hdrop] at hlen
          simp only [Option.some.injEq, Prod.mk.injEq] at h
          obtain ⟨h1, h2⟩ := h
          subst h2
          simp only [List.length_cons] at hlen ⊢
          omega
      · exact absurd h (by simp)
    · exact absurd h (by simp)

/-- The scan of `re.sub(r"\['(\d+)'\]", r"[\1]", s)`: leftmost,
non-overlapping replacement of every quoted-index pattern. -/
def fmtAux : List Char → List Char
  | [] => []
  | c :: rest =>
    match h : tryPat (c :: rest) with
    | some (ds, rest') => '[' :: (ds ++ ']' :: fmtAux rest')
    | none => c :: fmtAux rest
termination_by l => l.length
decreasing_by
  · exact tryPat_length h
  · simp

/-- `_format_path`: normalise `['0']` to `[0]` throughout the path. -/
def formatPath (s : String) : String := ⟨fmtAux s.data⟩

/-- ASCII whitespace stripped by Python's `str.strip()` / `int(str)`. -/
def pySpace (c : Char) : Bool :=
  c == ' ' || c == '\t' || c == '\n' || c == '\r' || c == '\x0b' || c == '\x0c'

/-- `str.strip()` on the character list. -/
def pyStripChars (cs : List Char) : List Char :=
  ((cs.dropWhile pySpace).reverse.dropWhile pySpace).reverse

/-- `str.strip()`. -/
def pyStrip (s : String) : String := ⟨pyStripChars s.data⟩

/-- `str.isdigit()` (ASCII model): nonempty and all decimal digits. -/
def pyIsDigitStr (s : String) : Bool := !s.isEmpty && s.data.all Char.isDigit

/-- Value of a list of decimal digit characters. -/
def digitsToNat (ds : List Char) : Nat :=
  ds.foldl (fun acc c => acc * 10 + (c.toNat - 48)) 0

mutual
/-- A digit-led run of digits and single separating underscores (the body
of a Python integer literal accepted by `int(str)`). -/
def udScan : List Char → Bool
  | [] => false
  | c :: rest => c.isDigit && udRest rest

def udRest : List Char → Bool
  | [] => true
  | '_' :: rest => udScan rest
  | c :: rest => c.isDigit && udRest rest
end

/-- Python `int(s)` on a string: optional surrounding whitespace, optional
sign, digits with optional single underscores between digits; `none` models
the `ValueError` on any other input (ASCII model). -/
def pyIntParse (s : String) : Option Int :=
  match pyStripChars s.data with
  | '+' :: rest =>
    if udScan rest then some (digitsToNat (rest.filter Char.isDigit)) else none
  | '-' :: rest =>
    if udScan rest then some (-(digitsToNat (rest.filter Char.isDigit) : Int)) else none
  | rest =>
    if udScan rest then some (digitsToNat (rest.filter Char.isDigit)) else none

/-- Parse a decimal floating literal `[sign](digits[.digits] | .digits)[(e|E)[sign]digits]`
into `(mantissa, power-of-ten exponent)`; `none` models `ValueError` from
`float(s)` (exact-arithmetic ASCII model of the float parse, see header). -/
def parseFloatLit (s : String) : Option (Int × Int) :=
  let cs := pyStripChars s.data
  let (neg, cs1) : Bool × List Char :=
    match cs with
    | '+' :: rest => (false, rest)
    | '-' :: rest => (true, rest)
    | rest => (false, rest)
  let intPart := cs1.takeWhile Char.isDigit
  let cs2 := cs1.dropWhile Char.isDigit
  let (fracPart, cs3) : List Char × List Char :=
    match cs2 with
    | '.' :: rest => (rest.takeWhile Char.isDigit, rest.dropWhile Char.isDigit)
    | rest => ([], rest)
  if intPart.isEmpty && fracPart.isEmpty then none
  else
    let mantAbs : Int := digitsToNat (intPart ++ fracPart)
    let mant : Int := if neg then -mantAbs else mantAbs
    match cs3 with
    | [] => some (mant, -(fracPart.length : Int))
    | e :: rest =>
      if e == 'e' || e == 'E' then
        let (eneg, rest1) : Bool × List Char :=
          match rest with
          | '+' :: r => (false, r)
          | '-' :: r => (true, r)
          | r => (false, r)
        if rest1.isEmpty || !rest1.all Char.isDigit then none
        else
          let ev : Int := digitsToNat rest1
          some (mant, (if eneg then -ev else ev) - (fracPart.length : Int))
      else none

/-- The exact value `m · 10^e` of a parsed float literal. -/
def parsedRat (m e : Int) : Rat :=
  if 0 ≤ e then ((m * 10 ^ e.toNat : Int) : Rat)
  else (m : Rat) / (((10 : Nat) ^ (-e).toNat : Nat) : Rat)

/-- Truncation toward zero: Python `int(f)` on a finite float. -/
def ratTrunc (q : Rat) : Int :=
  if 0 ≤ q then q.floor else -(-q).floor

/-- Least scale (from the given one, within fuel) making `q · 10^k`
integral. -/
def decScaleGo (q : Rat) : Nat → Nat → Option Nat
  | 0, _ => none
  | fuel + 1, k =>
    if (q * (10 : Rat) ^ k).den == 1 then some k else decScaleGo q fuel (k + 1)

/-- Exact decimal rendering of a finite float value (every finite IEEE
double has one; the sentinel marks rationals no float denotes). -/
def ratDecStr (q : Rat) : String :=
  if q.den == 1 then intStr q.num ++ ".0"
  else
    match decScaleGo q 1200 1 with
    | none => "<nondecimal>"
    | some k =>
      let m := (q * (10 : Rat) ^ k).num.natAbs
      let ds := natDigits m
      let ds' := List.replicate (k + 1 - ds.length) '0' ++ ds
      (if q < 0 then "-" else "")
        ++ (⟨ds'.take (ds'.length - k)⟩ : String) ++ "."
        ++ (⟨ds'.drop (ds'.length - k)⟩ : String)

/-- Python `str`/`repr` of a float. -/
def pyFloatStr : PyFloat → String
  | .nan => "nan"
  | .inf b => if b then "inf" else "-inf"
  | .finite q => ratDecStr q

mutual
/-- Python `repr(v)` (string quoting simplified to plain single quotes). -/
def pyRepr : Value → String
  | .null => "None"
  | .bool b => if b then "True" else "False"
  | .int n => intStr n
  | .float f => pyFloatStr f
  | .str s => "'" ++ s ++ "'"
  | .list xs => "[" ++ pyReprList xs ++ "]"
  | .map kvs => "\x7b" ++ pyReprEntries kvs ++ "\x7d"

def pyReprList : List Value → String
  | [] => ""
  | [x] => pyRepr x
  | x :: xs => pyRepr x ++ ", " ++ pyReprList xs

def pyReprEntries : List (String × Value) → String
  | [] => ""
  | [(k, v)] => "'" ++ k ++ "': " ++ pyRepr v
  | (k, v) :: rest => "'" ++ k ++ "': " ++ pyRepr v ++ ", " ++ pyReprEntries rest
end

/-- Python `str(v)`: a string is itself, anything else via `repr`. -/
def pyStr : Value → String
  | .str s => s
  | v => pyRepr v

/-! ## Configuration and difference records -/

/-- `deep_diff_contrast_config`: the two recognised keys with their
`get` defaults. -/
structure Config where
  ignoreOrder : Bool := true
  ignoreTypeInGroups : List (List PyType) := []
deriving Repr

/-- The four `check_*` keyword flags of `compare_structures`. -/
structure Opts where
  checkValue : Bool := true
  checkMissing : Bool := true
  checkRedundant : Bool := false
  checkType : Bool := true
deriving Repr, DecidableEq

/-- The kind of a difference record, identified by its Chinese label in the
rendered string: `[字段缺失]` missing, `[冗余字段]` redundant, `[类型冲突]`
type conflict, `[值变化]` value changed, `[列表差异] (iterable_item_removed)`
and `(iterable_item_added)`. -/
inductive DiffKind where
  | missingField | redundantField | typeConflict | valueChanged
  | listItemRemoved | listItemAdded
deriving DecidableEq, Repr

/-- A difference record: its kind and the path it is located at (the
free-text payload of the rendered record is elided, see header). -/
structure Diff where
  kind : DiffKind
  path : String
deriving DecidableEq, Repr

/-- `_is_same_type`: equal runtime types, or both types in a configured
group. -/
def isSameType (o c : Value) (cfg : Config) : Bool :=
  cfg.ignoreTypeInGroups.any (fun g => g.contains (typeOf o) && g.contains (typeOf c))
    || (typeOf o == typeOf c)

/-- `int(s) == c` for a digit string's value and a numeric `c`. -/
def intEqNum (n : Int) : Value → Bool
  | .int m => n == m
  | .bool b => n == (if b then 1 else 0 : Int)
  | .float f => floatEqInt f n
  | _ => false

/-- `float(s) == float(c)` for the parsed exact value `q` of `s` and a
numeric `c`. -/
def ratEqNum (q : Rat) : Value → Bool
  | .int n => q == ((n : Int) : Rat)
  | .bool b => q == (((if b then (1 : Int) else 0) : Int) : Rat)
  | .float f => pyEqFloat (.finite q) f
  | _ => false

/-- `_is_equivalent_value`: cross-type scalar equivalence, enabled only when
a configured type group contains both runtime types — digit strings against
numbers by `int(s)`, other strings by `float(s)`, and floats against ints
numerically. -/
def isEquivalentValue (origin current : Value) (cfg : Config) : Bool :=
  let typeGroups := cfg.ignoreTypeInGroups
  if typeGroups.isEmpty then false
  else if !(typeGroups.any fun g => g.contains (typeOf origin) && g.contains (typeOf current)) then
    false
  else if (pyEq origin (.str "") && pyEq current (.int 0))
      || (pyEq origin (.int 0) && pyEq current (.str "")) then true
  else
    match origin, current with
    | .str s, c =>
      if pyIsInstNum c then
        if pyIsDigitStr s then intEqNum (digitsToNat s.data) c
        else
          match parseFloatLit s with
          | some (m, e) => ratEqNum (parsedRat m e) c
          | none => false
      else false
    | o, .str t =>
      if pyIsInstNum o then
        if pyIsDigitStr t then intEqNum (digitsToNat t.data) o
        else
          match parseFloatLit t with
          | some (m, e) => ratEqNum (parsedRat m e) o
          | none => false
      else false
    | o, c =>
      if (o.isFloat && pyIsInstInt c) || (pyIsInstInt o && c.isFloat) then pyEq o c
      else false

/-- The `try`-block of `_type_conversion_judgment` for one group hit:
`some b` is a returned comparison, `none` is a `ValueError`/`TypeError`
(or no applicable branch), which moves on to the next group. -/
def convAttempt (old new : Value) : Option Bool :=
  match old with
  | .str s => some (s == pyStr new)
  | .int m =>
    match new with
    | .str t => (pyIntParse t).map (fun k => decide (m = k))
    | .bool b => some (decide (m = (if b then 1 else 0 : Int)))
    | .float (.finite q) => some (decide (m = ratTrunc q))
    | _ => none
  | .float f =>
    match new with
    | .str t =>
      match parseFloatLit t with
      | some (m, e) => some (pyEqFloat f (.finite (parsedRat m e)))
      | none => none
    | .int n => some (pyEqFloat f (.finite ((n : Int) : Rat)))
    | .bool b => some (pyEqFloat f (.finite (((if b then (1 : Int) else 0) : Int) : Rat)))
    | _ => none
  | old =>
    match new with
    | .str t => some (pyStr old == t)
    | .int n =>
      match old with
      | .bool b => some (decide ((if b then 1 else 0 : Int) = n))
      | _ => none
    | .float f =>
      match old with
      | .bool b => some (floatEqInt f (if b then 1 else 0))
      | _ => none
    | _ => none

/-- The group loop of `_type_conversion_judgment`. -/
def convJudgeGo (old new : Value) : List (List PyType) → Bool
  | [] => false
  | g :: gs =>
    if g.contains (typeOf old) && g.contains (typeOf new) then
      match convAttempt old new with
      | some b => b
      | none => convJudgeGo old new gs
    else convJudgeGo old new gs

/-- `_type_conversion_judgment`: suppress a value-changed report when the two
differently-typed values convert to the same value inside a configured
group. -/
def typeConversionJudgment (old new : Value) (cfg : Config) : Bool :=
  let typeGroups := cfg.ignoreTypeInGroups
  if typeGroups.isEmpty then false
  else if typeOf old == typeOf new then false
  else convJudgeGo old new typeGroups

/-- `_special_value_check`: the scalar heuristic used when `check_value` is
off — a non-blank string becoming blank, or a changed `int` (Python `int`,
so booleans included) whose new value is `≤ 0`. -/
def specialValueCheck (origin current : Value) (path : String)
    (differences : List Diff) : List Diff :=
  match origin, current with
  | .str s, .str t =>
    if !(pyStrip s == "") && (pyStrip t == "") then
      differences ++ [⟨.valueChanged, path⟩]
    else differences
  | o, c =>
    if pyIsInstInt o && pyIsInstInt c then
      if !(numVal o == numVal c) && decide (numVal c ≤ 0) then
        differences ++ [⟨.valueChanged, path⟩]
      else differences
    else differences

/-! ## Order-insensitive list matching -/

mutual
/-- `_items_match`: the deep structural-match predicate used to pair
elements of two lists when order is ignored. -/
def itemsMatch (origin current : Value) (checkType : Bool) (cfg : Config) : Bool :=
  if checkType && !(isSameType origin current cfg) then false
  else if !origin.isCont && !current.isCont then
    if !cfg.ignoreTypeInGroups.isEmpty && typeConversionJudgment origin current cfg then true
    else pyEq origin current
  else
    match origin, current with
    | .map a, .map b => a.length == b.length && itemsMatchEntries a b checkType cfg
    | .list xs, .list ys => itemsMatchList xs ys checkType cfg
    | _, _ => false

/-- The dict loop of `_items_match`: every origin binding has a matching
binding in the current dict. -/
def itemsMatchEntries (a b : List (String × Value)) (checkType : Bool) (cfg : Config) : Bool :=
  match a with
  | [] => true
  | (k, v) :: rest =>
    (match lookupVal k b with
     | some w => itemsMatch v w checkType cfg
     | none => false) && itemsMatchEntries rest b checkType cfg

/-- The list loop of `_items_match`: `zip`ped elements match pairwise
(under the equal-length guard of the caller). -/
def itemsMatchList (xs ys : List Value) (checkType : Bool) (cfg : Config) : Bool :=
  match xs, ys with
  | [], _ => true
  | _ :: _, [] => true
  | x :: xs', y :: ys' => itemsMatch x y checkType cfg && itemsMatchList xs' ys' checkType cfg
end

/-- The inner scan of the greedy matcher: find the first current index
`≥ j` that is not yet matched and deep-matches the origin item (`j` is the
index of the head of the remaining current-list suffix). -/
def findMatchLoop (originItem : Value) (checkType : Bool) (cfg : Config)
    (currentMatched : List Nat) : Nat → List Value → Option Nat
  | _, [] => none
  | j, c :: cs =>
    if currentMatched.contains j then
      findMatchLoop originItem checkType cfg currentMatched (j + 1) cs
    else if itemsMatch originItem c checkType cfg then some j
    else findMatchLoop originItem checkType cfg currentMatched (j + 1) cs

/-- The outer loop of the greedy matcher: in origin order, bind each origin
index to the first free matching current index; returns the binding list
(in insertion order, i.e. `origin_matched.items()`) and the set of claimed
current indices. -/
def greedyLoop (currentList : List Value) (checkType : Bool) (cfg : Config) :
    List Value → Nat → List (Nat × Nat) → List Nat → List (Nat × Nat) × List Nat
  | [], _, pairs, matched => (pairs, matched)
  | o :: os, i, pairs, matched =>
    match findMatchLoop o checkType cfg matched 0 currentList with
    | some j => greedyLoop currentList checkType cfg os (i + 1) (pairs ++ [(i, j)]) (matched ++ [j])
    | none => greedyLoop currentList checkType cfg os (i + 1) pairs matched

/-- The matching phase of `_compare_lists_native` in order-insensitive
mode: `(origin_matched, current_matched)`. -/
def greedyMatch (originList currentList : List Value) (checkType : Bool) (cfg : Config) :
    List (Nat × Nat) × List Nat :=
  greedyLoop currentList checkType cfg originList 0 [] []

/-! ## The structural differ -/

/-- The dict-key path `_format_path(f"{path}.{key}" if path else key)`. -/
def keyPath (path key : String) : String :=
  formatPath (if path = "" then key else path ++ "." ++ key)

/-- `_format_path` only rewrites quoted indices; it never empties a
nonempty string. -/
theorem fmtAux_ne_nil (c : Char) (l : List Char) : fmtAux (c :: l) ≠ [] := by
  rw [fmtAux]
  split <;> simp

/-- A dict-key path built from a nonempty path is nonempty: once a call
carries a nonempty path, every nested call does too, so the root
validation can re-fire only below empty dict keys at the root. -/
theorem keyPath_ne_empty (path key : String) (hp : path ≠ "") :
    keyPath path key ≠ "" := by
  unfold keyPath formatPath
  rw [if_neg hp]
  intro hcontra
  have hdata : fmtAux ((path ++ "." ++ key).data) = [] := congrArg String.data hcontra
  have hsplit : (path ++ "." ++ key).data = path.data ++ ('.' :: key.data) := by
    simp [String.data_append]
  cases hpd : path.data with
  | nil =>
    apply hp
    cases path with
    | mk l =>
      simp only at hpd
      rw [hpd]
  | cons c cs =>
    rw [hsplit, hpd] at hdata
    exact fmtAux_ne_nil c (cs ++ '.' :: key.data) hdata

/-- Auxiliary bound for the termination measure of the differ. -/
theorem sizeOf_lt_of_getElem? {xs : List Value} {i : Nat} {v : Value}
    (h : xs[i]? = some v) : sizeOf v < sizeOf xs :=
  List.sizeOf_lt_of_mem (List.getElem?_mem h)

/-- The redundant-key scan of `_compare_dicts`: keys of the current dict
absent from the origin dict. -/
def redundantScan (a b : List (String × Value)) (path : String)
    (ex : List String) : List Diff :=
  b.filterMap fun kv =>
    if (lookupVal kv.1 a).isSome then none
    else
      let currentPath := keyPath path kv.1
      if shouldExclude currentPath ex then none
      else some ⟨.redundantField, currentPath⟩

mutual
/-- `compare_structures` as called with a nonempty path (every path built
from a nonempty path stays nonempty, so the root validation can never
re-fire below such a call): the null dispatch, then the container dispatch,
then the root type-conflict case. -/
def compareCore (origin current : Value) (path : String) (opts : Opts)
    (ex : List String) (cfg : Config) : List Diff :=
  match origin, current with
  | .null, .null => []
  | .null, _ => if opts.checkMissing then [⟨.missingField, path⟩] else []
  | _, .null => if opts.checkRedundant then [⟨.redundantField, path⟩] else []
  | .map a, .map b =>
    compareDictEntries a b path opts ex cfg
      ++ (if opts.checkRedundant then redundantScan a b path ex else [])
  | .list xs, .list ys => compareLists xs ys path opts ex cfg
  | o, c =>
    if opts.checkType && !(isSameType o c cfg) then [⟨.typeConflict, path⟩] else []
termination_by (sizeOf origin, 9, 0)

/-- The origin-key loop of `_compare_dicts`. -/
def compareDictEntries (a b : List (String × Value)) (path : String)
    (opts : Opts) (ex : List String) (cfg : Config) : List Diff :=
  match a with
  | [] => []
  | (key, originVal) :: rest =>
    (let currentPath := keyPath path key
     if shouldExclude currentPath ex then []
     else
       match lookupVal key b with
       | none => if opts.checkMissing then [⟨.missingField, currentPath⟩] else []
       | some currentVal =>
         if originVal.isCont then
           compareCore originVal currentVal currentPath opts ex cfg
         else if opts.checkValue then
           if isEquivalentValue originVal currentVal cfg then []
           else if opts.checkType && !(isSameType originVal currentVal cfg) then
             [⟨.typeConflict, currentPath⟩]
           else if !(pyEq originVal currentVal) then [⟨.valueChanged, currentPath⟩]
           else []
         else specialValueCheck originVal currentVal currentPath [])
      ++ compareDictEntries rest b path opts ex cfg
termination_by (sizeOf a, 9, 0)

/-- `_compare_lists`: dispatch on `check_value`. -/
def compareLists (xs ys : List Value) (path : String) (opts : Opts)
    (ex : List String) (cfg : Config) : List Diff :=
  if opts.checkValue then compareListsNative xs ys path opts.checkType ex cfg
  else compareListsNoValue xs ys 0 path opts ex cfg
termination_by (sizeOf xs, 8, 0)

/-- The `check_value = false` branch of `_compare_lists`: elementwise up to
the shorter length, special-value and type checks only. -/
def compareListsNoValue (xs ys : List Value) (i : Nat) (path : String)
    (opts : Opts) (ex : List String) (cfg : Config) : List Diff :=
  match xs, ys with
  | x :: xs', y :: ys' =>
    (if x.isCont then compareCore x y (elemPath path i) opts ex cfg
     else
       specialValueCheck x y (elemPath path i) []
         ++ (if opts.checkType && !(isSameType x y cfg) then
               [⟨.typeConflict, elemPath path i⟩]
             else []))
      ++ compareListsNoValue xs' ys' (i + 1) path opts ex cfg
  | _, _ => []
termination_by (sizeOf xs, 7, 0)

/-- `_compare_lists_native`. -/
def compareListsNative (xs ys : List Value) (path : String) (checkType : Bool)
    (ex : List String) (cfg : Config) : List Diff :=
  if cfg.ignoreOrder then
    let pm := greedyMatch xs ys checkType cfg
    ((List.range xs.length).filterMap fun i =>
      if (pm.1.map Prod.fst).contains i then none
      else if shouldExclude (elemPath path i) ex then none
      else some ⟨.listItemRemoved, elemPath path i⟩)
    ++ ((List.range ys.length).filterMap fun j =>
      if pm.2.contains j then none
      else if shouldExclude (elemPath path j) ex then none
      else some ⟨.listItemAdded, elemPath path j⟩)
    ++ processMatched pm.1 xs ys path checkType ex cfg
  else compareListsOrdered xs ys (List.range (max xs.length ys.length)) path checkType ex cfg
termination_by (sizeOf xs, 7, 0)

/-- The matched-pair loop of `_compare_lists_native` (order-insensitive
mode): recursively re-compare each matched pair at the origin index. -/
def processMatched (pairs : List (Nat × Nat)) (xs ys : List Value) (path : String)
    (checkType : Bool) (ex : List String) (cfg : Config) : List Diff :=
  match pairs with
  | [] => []
  | (oi, ci) :: rest =>
    (match h1 : xs[oi]?, ys[ci]? with
     | some originItem, some currentItem =>
       let ep := elemPath path oi
       if shouldExclude ep ex then []
       else if originItem.isCont && currentItem.isCont then
         compareCore originItem currentItem ep ⟨true, true, false, checkType⟩ ex cfg
       else if originItem.isDict || currentItem.isDict then
         if checkType then [⟨.typeConflict, ep⟩] else []
       else if originItem.isList || currentItem.isList then
         if checkType then [⟨.typeConflict, ep⟩] else []
       else if isEquivalentValue originItem currentItem cfg then []
       else if checkType && !(isSameType originItem currentItem cfg) then [⟨.typeConflict, ep⟩]
       else if !(pyEq originItem currentItem) then
         if !cfg.ignoreTypeInGroups.isEmpty && typeConversionJudgment originItem currentItem cfg
         then [] else [⟨.valueChanged, ep⟩]
       else []
     | _, _ => [])
      ++ processMatched rest xs ys path checkType ex cfg
termination_by (sizeOf xs, 6, pairs.length)
decreasing_by
  · apply Prod.Lex.left
    exact sizeOf_lt_of_getElem? h1
  · apply Prod.Lex.right
    apply Prod.Lex.right
    simp

/-- The order-sensitive branch of `_compare_lists_native`: strict
index-by-index comparison over `range(max(len, len))`. -/
def compareListsOrdered (xs ys : List Value) (idxs : List Nat) (path : String)
    (checkType : Bool) (ex : List String) (cfg : Config) : List Diff :=
  match idxs with
  | [] => []
  | i :: rest =>
    (let ep := elemPath path i
     if shouldExclude ep ex then []
     else
       match h1 : xs[i]?, ys[i]? with
       | none, _ => [⟨.listItemAdded, ep⟩]
       | some _, none => [⟨.listItemRemoved, ep⟩]
       | some originItem, some currentItem =>
         if originItem.isCont && currentItem.isCont then
           compareCore originItem currentItem ep ⟨true, true, false, checkType⟩ ex cfg
         else if isEquivalentValue originItem currentItem cfg then []
         else if checkType && !(isSameType originItem currentItem cfg) then [⟨.typeConflict, ep⟩]
         else if !(pyEq originItem currentItem) then
           if !cfg.ignoreTypeInGroups.isEmpty && typeConversionJudgment originItem currentItem cfg
           then [] else [⟨.valueChanged, ep⟩]
         else [])
      ++ compareListsOrdered xs ys rest path checkType ex cfg
termination_by (sizeOf xs, 6, idxs.length)
decreasing_by
  · apply Prod.Lex.left
    exact sizeOf_lt_of_getElem? h1
  · apply Prod.Lex.right
    apply Prod.Lex.right
    simp
end

mutual
/-- `compare_structures` as re-entered with an empty `path`: the root
validation has already accepted both arguments as containers, so only the
dict/dict, list/list and mixed-container dispatch remains.  Nested calls made
by `_compare_dicts` carry `current_path`, which is empty exactly when both
`path` and the key are empty; such calls re-run the root validation and can
raise `ValueError` (modelled as `.error`).  All other nested calls carry a
nonempty path and are modelled by `compareCore`. -/
def compareRoot (origin current : Value) (opts : Opts) (ex : List String)
    (cfg : Config) : Except String (List Diff) :=
  match origin, current with
  | .map a, .map b =>
    match entriesRoot a b opts ex cfg with
    | .error e => .error e
    | .ok ds =>
      .ok (ds ++ (if opts.checkRedundant then redundantScan a b "" ex else []))
  | .list xs, .list ys => .ok (compareLists xs ys "" opts ex cfg)
  | o, c =>
    .ok (if opts.checkType && !(isSameType o c cfg) then [⟨.typeConflict, ""⟩] else [])
termination_by (sizeOf origin, 1)

/-- The origin-key loop of `_compare_dicts` at the empty path: each nested
container comparison re-enters `compare_structures` with `current_path`, so
when `current_path` is again empty the root validation re-fires and raises
unless the current value is also a container. -/
def entriesRoot (a b : List (String × Value)) (opts : Opts) (ex : List String)
    (cfg : Config) : Except String (List Diff) :=
  match a with
  | [] => .ok []
  | (key, originVal) :: rest =>
    let currentPath := keyPath "" key
    let headE : Except String (List Diff) :=
      if shouldExclude currentPath ex then .ok []
      else
        match lookupVal key b with
        | none => .ok (if opts.checkMissing then [⟨.missingField, currentPath⟩] else [])
        | some currentVal =>
          if originVal.isCont then
            if currentPath = "" then
              if !currentVal.isCont then .error "Origin和Current数据必须是字典或列表类型"
              else compareRoot originVal currentVal opts ex cfg
            else .ok (compareCore originVal currentVal currentPath opts ex cfg)
          else .ok (
            if opts.checkValue then
              if isEquivalentValue originVal currentVal cfg then []
              else if opts.checkType && !(isSameType originVal currentVal cfg) then
                [⟨.typeConflict, currentPath⟩]
              else if !(pyEq originVal currentVal) then [⟨.valueChanged, currentPath⟩]
              else []
            else specialValueCheck originVal currentVal currentPath [])
    match headE with
    | .error e => .error e
    | .ok ds =>
      match entriesRoot rest b opts ex cfg with
      | .error e => .error e
      | .ok ds' => .ok (ds ++ ds')
termination_by (sizeOf a, 0)
end

/-- Default exclusion set (`exclude_fields or {"go_article_service"}`). -/
def defaultExclude : List String := ["go_article_service"]

/-- Default contrast configuration (`{"ignore_order": True}`). -/
def defaultConfig : Config := {}

/-- Default keyword flags of `compare_structures`. -/
def defaultOpts : Opts := {}

/-- Top-level `compare_structures`: applies the argument defaults, raises
`ValueError` (modelled as `.error`) when the call is outermost (`path` empty)
and either root is not a dict or list, and otherwise runs the differ — via
the re-validating spine `compareRoot` when the path is empty, and via
`compareCore` (no further validation possible) when it is not. -/
def compare_structures (origin current : Value) (path : String) (opts : Opts)
    (excludeFields : Option (List String)) (cfg : Option Config) :
    Except String (List Diff) :=
  let ex := excludeFields.getD defaultExclude
  let c := cfg.getD defaultConfig
  if path = "" then
    if !(origin.isCont && current.isCont) then
      .error "Origin和Current数据必须是字典或列表类型"
    else compareRoot origin current opts ex c
  else .ok (compareCore origin current path opts ex c)

/-! ## Claim C4: type-group equivalence -/

/-- **C4.** With a configured type group `{str, int}`,
`compare_structures({v:"100"}, {v:100})` returns no differences; with no
type group configured, the same call returns exactly one `TypeConflict`
record at path `v`. -/
theorem claim_C4 :
    compare_structures (.map [("v", .str "100")]) (.map [("v", .int 100)]) ""
        defaultOpts none (some ⟨true, [[.strT, .intT]]⟩) = .ok []
    ∧ compare_structures (.map [("v", .str "100")]) (.map [("v", .int 100)]) ""
        defaultOpts none none = .ok [⟨.typeConflict, "v"⟩] := by
  constructor <;>
    (simp [compare_structures, compareRoot, entriesRoot, compareCore, compareDictEntries,
       compareLists, redundantScan,
       keyPath, shouldExclude, defaultExclude, defaultConfig, defaultOpts, splitDots,
       segMatchCode, formatPath, fmtAux, tryPat, lookupVal, isEquivalentValue, isSameType,
       typeOf, pyEq, Value.isCont, Value.isDict, Value.isList, wildSuffix] <;>
      first | rfl | decide)

/-! ## Claim C7: root validation -/

/-- **C3, counterexample.**  A null origin *value at a dict key* with a
present current value is handled by the scalar branch, not the null
dispatch: with `check_missing` on (the default), the differ reports a
`TypeConflict` at that path and no `MissingField` at all. -/
theorem claim_C3_counterexample :
    compare_structures (.map [("a", .null)]) (.map [("a", .int 5)]) "" defaultOpts none none
      = .ok [⟨.typeConflict, "a"⟩]
    ∧ defaultOpts.checkMissing = true := by
  constructor
  · simp [compare_structures, compareRoot, entriesRoot, compareCore, compareDictEntries,
      compareLists, redundantScan,
      keyPath, shouldExclude, defaultExclude, defaultConfig, defaultOpts, splitDots,
      segMatchCode, formatPath, fmtAux, tryPat, lookupVal, isEquivalentValue, isSameType,
      typeOf, pyEq, Value.isCont, Value.isDict, Value.isList, wildSuffix] <;>
      first | rfl | decide
  · rfl

/-- **C3, amended.**  The null dispatch applies only on entry to a
(recursive) call: when `compare_structures` is invoked with a null origin
argument, a non-null current argument and a nonempty path, it emits exactly
one `MissingField` at that path when `check_missing` is set and nothing
otherwise, and does not descend.  (A null origin value met *during* a dict
traversal instead goes through the scalar comparison — see the
counterexample.) -/
theorem claim_C3 (c : Value) (path : String) (opts : Opts)
    (exf : Option (List String)) (cfg : Option Config)
    (hp : path ≠ "") (hc : c.isNull = false) :
    compare_structures .null c path opts exf cfg
      = .ok (if opts.checkMissing then [⟨.missingField, path⟩] else []) := by
  unfold compare_structures
  rw [if_neg (by simp [hp])]
  cases c <;> simp [compareCore] <;> simp_all [Value.isNull]

/-- Witness for the amended C3. -/
theorem claim_C3_witness :
    compare_structures .null (.int 5) "p" defaultOpts none none
      = .ok [⟨.missingField, "p"⟩] := by
  have h := claim_C3 (.int 5) "p" defaultOpts none none (by decide) (by rfl)
  simpa using h

/-! ## Claim C8: the `check_value = false` heuristic -/

/-- The amended condition: as the spec says, but with Python's
`isinstance(•, int)`, which also covers booleans (`True`/`False` count as
the integers `1`/`0`). -/
def c8AmendedCond (o c : Value) : Prop :=
  (∃ s t, o = .str s ∧ c = .str t ∧ pyStrip s ≠ "" ∧ pyStrip t = "")
  ∨ (pyIsInstInt o = true ∧ pyIsInstInt c = true ∧ numVal o ≠ numVal c ∧ numVal c ≤ 0)

/-- Every record produced by the redundant-key scan is a `RedundantField`. -/
theorem redundantScan_kind {a b : List (String × Value)} {p : String}
    {ex : List String} {d : Diff} (hd : d ∈ redundantScan a b p ex) :
    d.kind = .redundantField := by
  unfold redundantScan at hd
  obtain ⟨x, hx, hfx⟩ := List.mem_filterMap.mp hd
  dsimp only at hfx
  split at hfx
  · exact absurd hfx (by simp)
  · split at hfx
    · exact absurd hfx (by simp)
    · cases hfx
      rfl

/-- Membership in a one-or-none conditional list forces the single value. -/
theorem mem_ite_single {α : Type} {d r : α} {c : Prop} [Decidable c]
    (h : d ∈ if c then [r] else ([] : List α)) : d = r := by
  split at h <;> simp_all

/-- Any record produced by `_special_value_check` is a `ValueChanged` at
the given path, and its inputs satisfy the (amended) heuristic
condition. -/
theorem specialValueCheck_mem {o c : Value} {p : String} {d : Diff}
    (hd : d ∈ specialValueCheck o c p []) :
    d = ⟨.valueChanged, p⟩ ∧ c8AmendedCond o c := by
  unfold specialValueCheck at hd
  split at hd
  · rename_i s t
    split at hd
    · rename_i hcond
      rw [Bool.and_eq_true, Bool.not_eq_true', beq_eq_false_iff_ne, beq_iff_eq] at hcond
      simp only [List.nil_append, List.mem_singleton] at hd
      exact ⟨hd, Or.inl ⟨s, t, rfl, rfl, hcond.1, hcond.2⟩⟩
    · simp at hd
  · rename_i o' c' hne
    split at hd
    · rename_i h1
      rw [Bool.and_eq_true] at h1
      split at hd
      · rename_i h2
        rw [Bool.and_eq_true, Bool.not_eq_true', beq_eq_false_iff_ne, decide_eq_true_eq] at h2
        simp only [List.nil_append, List.mem_singleton] at hd
        exact ⟨hd, Or.inr ⟨h1.1, h1.2, h2.1, h2.2⟩⟩
      · simp at hd
    · simp at hd

theorem isSameType_refl (v : Value) (cfg : Config) : isSameType v v cfg = true := by
  simp [isSameType]

theorem pyEq_refl_scalar (v : Value) (h : v.isCont = false) (hnn : noNan v = true) :
    pyEq v v = true := by
  cases v
  case float f => cases f <;> simp_all [pyEq, pyEqFloat, noNan]
  all_goals simp_all [pyEq, Value.isCont, Value.isDict, Value.isList]

theorem typeConversionJudgment_self (v : Value) (cfg : Config) :
    typeConversionJudgment v v cfg = false := by
  simp [typeConversionJudgment]

theorem specialValueCheck_refl (v : Value) (p : String) :
    specialValueCheck v v p [] = [] := by
  cases v <;> simp [specialValueCheck]

theorem lookup_isSome_of_mem {k : String} {v : Value} {a : List (String × Value)}
    (h : (k, v) ∈ a) : (lookupVal k a).isSome = true := by
  induction a with
  | nil => simp at h
  | cons kv rest ih =>
    obtain ⟨k', v'⟩ := kv
    rcases List.mem_cons.mp h with heq | hmem
    · cases heq
      simp [lookupVal]
    · by_cases hk : k' = k <;> simp [lookupVal, hk, ih hmem]

theorem lookup_nodup {k : String} {v : Value} {a : List (String × Value)}
    (hnd : nodupKeys a = true) (h : (k, v) ∈ a) : lookupVal k a = some v := by
  induction a with
  | nil => simp at h
  | cons kv rest ih =>
    obtain ⟨k', v'⟩ := kv
    simp only [nodupKeys, Bool.and_eq_true, Bool.not_eq_true'] at hnd
    rcases List.mem_cons.mp h with heq | hmem
    · cases heq
      simp [lookupVal]
    · have hk : k' ≠ k := by
        intro hkk
        subst hkk
        have hmm : k' ∈ rest.map Prod.fst := List.mem_map.mpr ⟨(k', v), hmem, rfl⟩
        have : (rest.map Prod.fst).contains k' = true := by
          rw [List.contains_eq_any_beq]
          exact List.any_eq_true.mpr ⟨k', hmm, by simp⟩
        simp [this] at hnd
        exact hnd.1 v hmem
      simp [lookupVal, hk, ih hnd.2 hmem]

theorem wfEntries_mem {a : List (String × Value)} {k : String} {v : Value}
    (hwf : wfEntries a = true) (h : (k, v) ∈ a) : wfValue v = true := by
  induction a with
  | nil => simp at h
  | cons kv rest ih =>
    obtain ⟨k', v'⟩ := kv
    simp only [wfEntries, Bool.and_eq_true] at hwf
    rcases List.mem_cons.mp h with heq | hmem
    · cases heq
      exact hwf.1
    · exact ih hwf.2 hmem

theorem wfList_mem {xs : List Value} {x : Value}
    (hwf : wfList xs = true) (h : x ∈ xs) : wfValue x = true := by
  induction xs with
  | nil => simp at h
  | cons y rest ih =>
    simp only [wfList, Bool.and_eq_true] at hwf
    rcases List.mem_cons.mp h with heq | hmem
    · cases heq
      exact hwf.1
    · exact ih hwf.2 hmem

theorem noNanEntries_mem {a : List (String × Value)} {k : String} {v : Value}
    (hnn : noNanEntries a = true) (h : (k, v) ∈ a) : noNan v = true := by
  induction a with
  | nil => simp at h
  | cons kv rest ih =>
    obtain ⟨k', v'⟩ := kv
    simp only [noNanEntries, Bool.and_eq_true] at hnn
    rcases List.mem_cons.mp h with heq | hmem
    · cases heq
      exact hnn.1
    · exact ih hnn.2 hmem

theorem noNanList_mem {xs : List Value} {x : Value}
    (hnn : noNanList xs = true) (h : x ∈ xs) : noNan x = true := by
  induction xs with
  | nil => simp at h
  | cons y rest ih =>
    simp only [noNanList, Bool.and_eq_true] at hnn
    rcases List.mem_cons.mp h with heq | hmem
    · cases heq
      exact hnn.1
    · exact ih hnn.2 hmem

/-- `_items_match` is reflexive on well-formed, NaN-free values. -/
theorem itemsMatch_refl (n : Nat) :
    ∀ (v : Value) (ct : Bool) (cfg : Config), sizeOf v ≤ n → wfValue v = true →
      noNan v = true → itemsMatch v v ct cfg = true := by
  induction n using Nat.strong_induction_on with
  | _ n IH =>
  intro v ct cfg hsz hwf hnn
  cases v with
  | null =>
    simp [itemsMatch, isSameType_refl, typeConversionJudgment_self,
      Value.isCont, Value.isDict, Value.isList, pyEq]
  | bool b =>
    simp [itemsMatch, isSameType_refl, typeConversionJudgment_self,
      Value.isCont, Value.isDict, Value.isList, pyEq]
  | int m =>
    simp [itemsMatch, isSameType_refl, typeConversionJudgment_self,
      Value.isCont, Value.isDict, Value.isList, pyEq]
  | float f =>
    cases f <;>
      simp_all [itemsMatch, isSameType_refl, typeConversionJudgment_self,
        Value.isCont, Value.isDict, Value.isList, pyEq, pyEqFloat, noNan]
  | str s =>
    simp [itemsMatch, isSameType_refl, typeConversionJudgment_self,
      Value.isCont, Value.isDict, Value.isList, pyEq]
  | list xs =>
    simp only [itemsMatch, isSameType_refl, Bool.not_true, Bool.and_false,
      Bool.false_eq_true, if_false, Value.isCont, Value.isDict, Value.isList,
      Bool.or_false, Bool.not_false, Bool.and_self, if_true]
    simp only [wfValue] at hwf
    simp only [noNan] at hnn
    have hb : ∀ x ∈ xs, sizeOf x < n := by
      intro x hx
      have h1 : sizeOf x < sizeOf xs := List.sizeOf_lt_of_mem hx
      have h2 : sizeOf (Value.list xs) ≤ n := hsz
      simp only [Value.list.sizeOf_spec] at h2
      omega
    have key : ∀ (xs' : List Value), (∀ x ∈ xs', x ∈ xs) →
        itemsMatchList xs' xs' ct cfg = true := by
      intro xs'
      induction xs' with
      | nil => intro _; simp [itemsMatchList]
      | cons x rest ih =>
        intro hsub
        have hmem : x ∈ xs := hsub _ (by simp)
        simp only [itemsMatchList, Bool.and_eq_true]
        exact ⟨IH (sizeOf x) (hb x hmem) x ct cfg le_rfl (wfList_mem hwf hmem)
            (noNanList_mem hnn hmem),
          ih (fun z h => hsub z (by simp [h]))⟩
    exact key xs (fun z h => h)
  | map a =>
    simp only [itemsMatch, isSameType_refl, Bool.not_true, Bool.and_false,
      Bool.false_eq_true, if_false, Value.isCont, Value.isDict, Value.isList,
      Bool.true_or, Bool.not_true, Bool.false_and, beq_self_eq_true, Bool.true_and]
    simp only [wfValue, Bool.and_eq_true] at hwf
    simp only [noNan] at hnn
    obtain ⟨hnd, hwfe⟩ := hwf
    have hb : ∀ kv ∈ a, sizeOf (Prod.snd kv) < n := by
      intro kv hkv
      have h1 : sizeOf kv < sizeOf a := List.sizeOf_lt_of_mem hkv
      have h2 : sizeOf (Value.map a) ≤ n := hsz
      obtain ⟨k, v'⟩ := kv
      simp only [Prod.mk.sizeOf_spec, Value.map.sizeOf_spec] at h1 h2 ⊢
      omega
    have key : ∀ (a' : List (String × Value)), (∀ kv ∈ a', kv ∈ a) →
        itemsMatchEntries a' a ct cfg = true := by
      intro a'
      induction a' with
      | nil => intro _; simp [itemsMatchEntries]
      | cons kv rest ih =>
        intro hsub
        obtain ⟨k, v'⟩ := kv
        have hmem : (k, v') ∈ a := hsub _ (by simp)
        have hlk : lookupVal k a = some v' := lookup_nodup hnd hmem
        simp only [itemsMatchEntries, hlk, Bool.and_eq_true]
        exact ⟨IH (sizeOf v') (hb (k, v') hmem) v' ct cfg le_rfl (wfEntries_mem hwfe hmem)
            (noNanEntries_mem hnn hmem),
          ih (fun z h => hsub z (by simp [h]))⟩
    exact key a (fun z h => h)

theorem contains_iff_mem {α : Type} [BEq α] [LawfulBEq α] {a : α} {l : List α} :
    l.contains a = true ↔ a ∈ l := by
  rw [List.contains_eq_any_beq]
  simp [List.any_eq_true]

/-- Scanning the current list against a diagonal prefix of claimed indices:
position `k` is the first free match when comparing a list with itself. -/
theorem fm_diag (cur : List Value) (ct : Bool) (cfg : Config) (k : Nat)
    (hk : k < cur.length) (hrefl : itemsMatch cur[k] cur[k] ct cfg = true) :
    ∀ (cs : List Value) (j : Nat), j ≤ k → cs = cur.drop j →
      findMatchLoop cur[k] ct cfg (List.range k) j cs = some k := by
  intro cs
  induction cs with
  | nil =>
    intro j hj hcs
    have := List.drop_eq_nil_iff.mp hcs.symm
    omega
  | cons c cs' ih =>
    intro j hj hcs
    rcases Nat.lt_or_ge j k with hjk | hjk
    · have hcont : (List.range k).contains j = true :=
        contains_iff_mem.mpr (List.mem_range.mpr hjk)
      rw [findMatchLoop, if_pos hcont]
      apply ih (j + 1) hjk
      have h1 : cur.drop (j + 1) = (cur.drop j).drop 1 := by
        rw [List.drop_drop]
      rw [h1, ← hcs, List.drop_one, List.tail_cons]
    · have hjk' : j = k := Nat.le_antisymm hj hjk
      subst hjk'
      have hcont : (List.range j).contains j = false := by
        rw [← Bool.not_eq_true]
        intro hc
        exact absurd (List.mem_range.mp (contains_iff_mem.mp hc)) (by omega)
      have hdrop : cur.drop j = cur[j] :: cur.drop (j + 1) :=
        List.drop_eq_getElem_cons hk
      rw [hdrop] at hcs
      injection hcs with he1 he2
      rw [findMatchLoop, if_neg (by simp [hcont]), he1, if_pos hrefl]

/-- Greedy matching of a well-formed list against itself produces the
diagonal pairing. -/
theorem greedy_diag_aux (cur : List Value) (ct : Bool) (cfg : Config)
    (hrefl : ∀ x ∈ cur, itemsMatch x x ct cfg = true) :
    ∀ (os : List Value) (k : Nat), k ≤ cur.length → os = cur.drop k →
      greedyLoop cur ct cfg os k ((List.range k).map fun t => (t, t)) (List.range k)
        = ((List.range cur.length).map fun t => (t, t), List.range cur.length) := by
  intro os
  induction os with
  | nil =>
    intro k hk hos
    have hlen : cur.length ≤ k := List.drop_eq_nil_iff.mp hos.symm
    have hkl : k = cur.length := Nat.le_antisymm hk hlen
    subst hkl
    rw [greedyLoop]
  | cons o os' ih =>
    intro k hk hos
    have hklt : k < cur.length := by
      by_contra h
      have hnil : cur.drop k = [] := List.drop_eq_nil_iff.mpr (by omega)
      rw [hnil] at hos
      simp at hos
    have hdrop : cur.drop k = cur[k] :: cur.drop (k + 1) := List.drop_eq_getElem_cons hklt
    rw [hdrop] at hos
    injection hos with he1 he2
    rw [greedyLoop, he1,
      fm_diag cur ct cfg k hklt (hrefl _ (List.getElem_mem hklt)) cur 0 (by omega) (by simp)]
    have hp : (List.range k).map (fun t => (t, t)) ++ [(k, k)]
        = (List.range (k + 1)).map fun t => (t, t) := by
      rw [List.range_succ, List.map_append]
      rfl

    have hm : List.range k ++ [k] = List.range (k + 1) := (List.range_succ k).symm
    dsimp only
    rw [hp, hm]
    exact ih (k + 1) (by omega) he2

/-- `greedyMatch` of a list with itself. -/
theorem greedyMatch_diag (xs : List Value) (ct : Bool) (cfg : Config)
    (hrefl : ∀ x ∈ xs, itemsMatch x x ct cfg = true) :
    greedyMatch xs xs ct cfg
      = ((List.range xs.length).map fun t => (t, t), List.range xs.length) := by
  unfold greedyMatch
  have h := greedy_diag_aux xs ct cfg hrefl xs 0 (by omega) (by simp)
  simpa using h

/-- Unfolding of one matched pair when both indices are in range. -/
theorem processMatched_cons_some {xs ys : List Value} {oi ci : Nat} {x y : Value}
    (hx : xs[oi]? = some x) (hy : ys[ci]? = some y)
    (rest : List (Nat × Nat)) (path : String) (ct : Bool) (ex : List String) (cfg : Config) :
    processMatched ((oi, ci) :: rest) xs ys path ct ex cfg
      = (if shouldExclude (elemPath path oi) ex then []
         else if x.isCont && y.isCont then
           compareCore x y (elemPath path oi) ⟨true, true, false, ct⟩ ex cfg
         else if x.isDict || y.isDict then
           (if ct then [⟨.typeConflict, elemPath path oi⟩] else [])
         else if x.isList || y.isList then
           (if ct then [⟨.typeConflict, elemPath path oi⟩] else [])
         else if isEquivalentValue x y cfg then []
         else if ct && !(isSameType x y cfg) then [⟨.typeConflict, elemPath path oi⟩]
         else if !(pyEq x y) then
           (if !cfg.ignoreTypeInGroups.isEmpty && typeConversionJudgment x y cfg then []
            else [⟨.valueChanged, elemPath path oi⟩])
         else [])
        ++ processMatched rest xs ys path ct ex cfg := by
  rw [processMatched]
  congr 1
  split <;> simp_all

/-- Unfolding of one matched pair when an index is out of range. -/
theorem processMatched_cons_none {xs ys : List Value} {oi ci : Nat}
    (h : xs[oi]? = none ∨ ys[ci]? = none)
    (rest : List (Nat × Nat)) (path : String) (ct : Bool) (ex : List String) (cfg : Config) :
    processMatched ((oi, ci) :: rest) xs ys path ct ex cfg
      = processMatched rest xs ys path ct ex cfg := by
  rw [processMatched]
  rcases h with h | h <;> (split <;> simp_all)

/-- Unfolding of one index of the order-sensitive loop, in-range case. -/
theorem compareListsOrdered_cons_some {xs ys : List Value} {i : Nat} {x y : Value}
    (hx : xs[i]? = some x) (hy : ys[i]? = some y)
    (rest : List Nat) (path : String) (ct : Bool) (ex : List String) (cfg : Config) :
    compareListsOrdered xs ys (i :: rest) path ct ex cfg
      = (if shouldExclude (elemPath path i) ex then []
         else if x.isCont && y.isCont then
           compareCore x y (elemPath path i) ⟨true, true, false, ct⟩ ex cfg
         else if isEquivalentValue x y cfg then []
         else if ct && !(isSameType x y cfg) then [⟨.typeConflict, elemPath path i⟩]
         else if !(pyEq x y) then
           (if !cfg.ignoreTypeInGroups.isEmpty && typeConversionJudgment x y cfg then []
            else [⟨.valueChanged, elemPath path i⟩])
         else [])
        ++ compareListsOrdered xs ys rest path ct ex cfg := by
  rw [compareListsOrdered]
  congr 1
  dsimp only
  by_cases hex : shouldExclude (elemPath path i) ex = true
  · simp [hex]
  · rw [if_neg hex, if_neg hex]
    split <;> simp_all

/-- Comparing any well-formed value with itself yields no differences,
whatever the options, exclusions and configuration. -/
theorem coreIdentity (n : Nat) :
    ∀ (v : Value) (path : String) (opts : Opts) (ex : List String) (cfg : Config),
      sizeOf v ≤ n → wfValue v = true → noNan v = true →
      compareCore v v path opts ex cfg = [] := by
  induction n using Nat.strong_induction_on with
  | _ n IH =>
  intro v path opts ex cfg hsz hwf hnn
  cases v with
  | null => simp [compareCore]
  | bool b => simp [compareCore, isSameType_refl]
  | int m => simp [compareCore, isSameType_refl]
  | float f => simp [compareCore, isSameType_refl]
  | str s => simp [compareCore, isSameType_refl]
  | map a =>
    simp only [compareCore]
    simp only [wfValue, Bool.and_eq_true] at hwf
    simp only [noNan] at hnn
    obtain ⟨hnd, hwfe⟩ := hwf
    have hb : ∀ kv ∈ a, sizeOf (Prod.snd kv) < n := by
      intro kv hkv
      have h1 : sizeOf kv < sizeOf a := List.sizeOf_lt_of_mem hkv
      have h2 : sizeOf (Value.map a) ≤ n := hsz
      obtain ⟨k, w⟩ := kv
      simp only [Prod.mk.sizeOf_spec, Value.map.sizeOf_spec] at h1 h2 ⊢
      omega
    have hscan : redundantScan a a path ex = [] := by
      unfold redundantScan
      rw [List.filterMap_eq_nil_iff]
      intro kv hkv
      simp [lookup_isSome_of_mem (k := kv.1) (v := kv.2) (by simpa using hkv)]
    have hentries : ∀ (a' : List (String × Value)), (∀ kv ∈ a', kv ∈ a) →
        compareDictEntries a' a path opts ex cfg = [] := by
      intro a'
      induction a' with
      | nil => intro _; simp [compareDictEntries]
      | cons kv rest ihe =>
        intro hsub
        obtain ⟨k, w⟩ := kv
        have hmem : (k, w) ∈ a := hsub _ (by simp)
        have hlk : lookupVal k a = some w := lookup_nodup hnd hmem
        simp only [compareDictEntries, hlk]
        rw [ihe (fun z h => hsub z (by simp [h])), List.append_nil]
        split
        · rfl
        · by_cases hc : w.isCont = true
          · rw [if_pos hc]
            exact IH (sizeOf w) (hb (k, w) hmem) w _ opts ex cfg le_rfl
              (wfEntries_mem hwfe hmem) (noNanEntries_mem hnn hmem)
          · rw [if_neg (by simp [hc])]
            cases hcv : opts.checkValue with
            | false => simp [specialValueCheck_refl]
            | true =>
              simp [isSameType_refl,
                pyEq_refl_scalar w (by simpa using hc) (noNanEntries_mem hnn hmem)]
    rw [hentries a (fun z h => h), hscan]
    simp
  | list xs =>
    simp only [compareCore, compareLists]
    simp only [wfValue] at hwf
    simp only [noNan] at hnn
    have hb : ∀ x ∈ xs, sizeOf x < n := by
      intro x hx
      have h1 : sizeOf x < sizeOf xs := List.sizeOf_lt_of_mem hx
      have h2 : sizeOf (Value.list xs) ≤ n := hsz
      simp only [Value.list.sizeOf_spec] at h2
      omega
    cases hcv : opts.checkValue with
    | false =>
      simp only [Bool.false_eq_true, if_false]
      have key : ∀ (xs' : List Value) (i : Nat), (∀ x ∈ xs', x ∈ xs) →
          compareListsNoValue xs' xs' i path opts ex cfg = [] := by
        intro xs'
        induction xs' with
        | nil => intro i _; simp [compareListsNoValue]
        | cons x rest ihx =>
          intro i hsub
          have hmem : x ∈ xs := hsub _ (by simp)
          simp only [compareListsNoValue]
          rw [ihx (i + 1) (fun z h => hsub z (by simp [h])), List.append_nil]
          by_cases hc : x.isCont = true
          · rw [if_pos hc]
            exact IH (sizeOf x) (hb x hmem) x _ opts ex cfg le_rfl (wfList_mem hwf hmem)
              (noNanList_mem hnn hmem)
          · rw [if_neg (by simp [hc])]
            simp [specialValueCheck_refl, isSameType_refl]
      exact key xs 0 (fun z h => h)
    | true =>
      simp only [if_true]
      rw [compareListsNative]
      have hrefl : ∀ x ∈ xs, itemsMatch x x opts.checkType cfg = true := by
        intro x hx
        exact itemsMatch_refl (sizeOf x) x opts.checkType cfg le_rfl (wfList_mem hwf hx)
          (noNanList_mem hnn hx)
      cases hio : cfg.ignoreOrder with
      | false =>
        simp only [Bool.false_eq_true, if_false]
        have key : ∀ (idxs : List Nat), (∀ i ∈ idxs, i < xs.length) →
            compareListsOrdered xs xs idxs path opts.checkType ex cfg = [] := by
          intro idxs
          induction idxs with
          | nil => intro _; simp [compareListsOrdered]
          | cons i rest ihx =>
            intro hlt
            have hi : i < xs.length := hlt _ (by simp)
            have hget : xs[i]? = some xs[i] := List.getElem?_eq_getElem hi
            rw [compareListsOrdered_cons_some hget hget,
              ihx (fun z h => hlt z (by simp [h])), List.append_nil]
            split
            · rfl
            · by_cases hc : xs[i].isCont = true
              · rw [if_pos (by simp [hc])]
                exact IH (sizeOf xs[i]) (hb _ (List.getElem_mem hi)) _ _ _ ex cfg le_rfl
                  (wfList_mem hwf (List.getElem_mem hi))
                  (noNanList_mem hnn (List.getElem_mem hi))
              · rw [if_neg (by simp [hc])]
                simp [isSameType_refl, pyEq_refl_scalar _ (by simpa using hc)
                  (noNanList_mem hnn (List.getElem_mem hi))]
        exact key (List.range (max xs.length xs.length)) (by simp [List.mem_range])
      | true =>
        simp only [if_true]
        rw [greedyMatch_diag xs opts.checkType cfg hrefl]
        have hfst : (((List.range xs.length).map fun t => (t, t)).map Prod.fst)
            = List.range xs.length := by
          rw [List.map_map]
          have h2 : (Prod.fst ∘ fun t : Nat => (t, t)) = id := rfl
          rw [h2, List.map_id]
        have hrem : ((List.range xs.length).filterMap fun i =>
            if ((((List.range xs.length).map fun t => (t, t)).map Prod.fst).contains i) then none
            else if shouldExclude (elemPath path i) ex then none
            else some (⟨.listItemRemoved, elemPath path i⟩ : Diff)) = [] := by
          rw [List.filterMap_eq_nil_iff]
          intro i hi
          rw [hfst, if_pos (contains_iff_mem.mpr hi)]
        have hadd : ((List.range xs.length).filterMap fun j =>
            if ((List.range xs.length).contains j) then none
            else if shouldExclude (elemPath path j) ex then none
            else some (⟨.listItemAdded, elemPath path j⟩ : Diff)) = [] := by
          rw [List.filterMap_eq_nil_iff]
          intro j hj
          rw [if_pos (contains_iff_mem.mpr hj)]
        have hproc : ∀ (ps : List (Nat × Nat)), (∀ pq ∈ ps, pq.1 = pq.2 ∧ pq.1 < xs.length) →
            processMatched ps xs xs path opts.checkType ex cfg = [] := by
          intro ps
          induction ps with
          | nil => intro _; simp [processMatched]
          | cons pq rest ihp =>
            intro hdg
            obtain ⟨oi, ci⟩ := pq
            obtain ⟨he, hlt⟩ := hdg (oi, ci) (by simp)
            dsimp only at he hlt
            subst he
            have hget : xs[oi]? = some xs[oi] := List.getElem?_eq_getElem hlt
            rw [processMatched_cons_some hget hget,
              ihp (fun z h => hdg z (by simp [h])), List.append_nil]
            split
            · rfl
            · by_cases hc : xs[oi].isCont = true
              · rw [if_pos (by simp [hc])]
                exact IH (sizeOf xs[oi]) (hb _ (List.getElem_mem hlt)) _ _ _ ex cfg le_rfl
                  (wfList_mem hwf (List.getElem_mem hlt))
                  (noNanList_mem hnn (List.getElem_mem hlt))
              · rw [if_neg (by simp [hc])]
                have hnd2 : xs[oi].isDict = false := by
                  cases h : xs[oi] <;> simp_all [Value.isCont, Value.isDict, Value.isList]
                have hnl2 : xs[oi].isList = false := by
                  cases h : xs[oi] <;> simp_all [Value.isCont, Value.isDict, Value.isList]
                rw [if_neg (by simp [hnd2]), if_neg (by simp [hnl2])]
                simp [isSameType_refl, pyEq_refl_scalar _ (by simpa using hc)
                  (noNanList_mem hnn (List.getElem_mem hlt))]
        rw [hrem, hadd, hproc ((List.range xs.length).map fun t => (t, t))
          (by intro pq hpq
              obtain ⟨t, ht, hrw⟩ := List.mem_map.mp hpq
              cases hrw
              exact ⟨rfl, List.mem_range.mp ht⟩)]
        simp

/-- The re-validating root spine never errors on identical inputs and, on
well-formed NaN-free values, yields no differences. -/
theorem rootIdentity (n : Nat) :
    ∀ (v : Value) (opts : Opts) (ex : List String) (cfg : Config),
      sizeOf v ≤ n → wfValue v = true → noNan v = true →
      compareRoot v v opts ex cfg = .ok [] := by
  induction n using Nat.strong_induction_on with
  | _ n IH =>
  intro v opts ex cfg hsz hwf hnn
  cases v with
  | null => simp [compareRoot, isSameType_refl]
  | bool b => simp [compareRoot, isSameType_refl]
  | int m => simp [compareRoot, isSameType_refl]
  | float f => simp [compareRoot, isSameType_refl]
  | str s => simp [compareRoot, isSameType_refl]
  | list xs =>
    have hc := coreIdentity (sizeOf (Value.list xs)) (Value.list xs) "" opts ex cfg
      le_rfl hwf hnn
    simp only [compareCore] at hc
    simp only [compareRoot, hc]
  | map a =>
    simp only [wfValue, Bool.and_eq_true] at hwf
    simp only [noNan] at hnn
    obtain ⟨hnd, hwfe⟩ := hwf
    have hb : ∀ kv ∈ a, sizeOf (Prod.snd kv) < n := by
      intro kv hkv
      have h1 : sizeOf kv < sizeOf a := List.sizeOf_lt_of_mem hkv
      have h2 : sizeOf (Value.map a) ≤ n := hsz
      obtain ⟨k, w⟩ := kv
      simp only [Prod.mk.sizeOf_spec, Value.map.sizeOf_spec] at h1 h2 ⊢
      omega
    have hscan : redundantScan a a "" ex = [] := by
      unfold redundantScan
      rw [List.filterMap_eq_nil_iff]
      intro kv hkv
      simp [lookup_isSome_of_mem (k := kv.1) (v := kv.2) (by simpa using hkv)]
    have hentries : ∀ (a' : List (String × Value)), (∀ kv ∈ a', kv ∈ a) →
        entriesRoot a' a opts ex cfg = .ok [] := by
      intro a'
      induction a' with
      | nil => intro _; simp [entriesRoot]
      | cons kv rest ihe =>
        intro hsub
        obtain ⟨k, w⟩ := kv
        have hmem : (k, w) ∈ a := hsub _ (by simp)
        have hlk : lookupVal k a = some w := lookup_nodup hnd hmem
        have htail := ihe (fun z h => hsub z (by simp [h]))
        simp only [entriesRoot, hlk, htail]
        by_cases hex : shouldExclude (keyPath "" k) ex = true
        · simp [hex]
        · rw [if_neg hex]
          by_cases hc : w.isCont = true
          · rw [if_pos hc]
            by_cases hp : keyPath "" k = ""
            · rw [if_pos hp, if_neg (by simp [hc]),
                IH (sizeOf w) (hb (k, w) hmem) w opts ex cfg le_rfl
                  (wfEntries_mem hwfe hmem) (noNanEntries_mem hnn hmem)]
              simp
            · rw [if_neg hp,
                coreIdentity (sizeOf w) w _ opts ex cfg le_rfl
                  (wfEntries_mem hwfe hmem) (noNanEntries_mem hnn hmem)]
              simp
          · rw [if_neg hc]
            cases hcv : opts.checkValue with
            | false => simp [specialValueCheck_refl]
            | true =>
              simp [isSameType_refl,
                pyEq_refl_scalar w (by simpa using hc) (noNanEntries_mem hnn hmem)]
    simp only [compareRoot, hentries a (fun z h => h), hscan]
    simp

/-- When the re-validating root spine reaches a container pair and does not
raise, it computes exactly what the validation-free body computes. -/
theorem rootBridge (n : Nat) :
    ∀ (o c : Value) (opts : Opts) (ex : List String) (cfg : Config) (ds : List Diff),
      sizeOf o ≤ n → o.isCont = true → c.isCont = true →
      compareRoot o c opts ex cfg = .ok ds →
      ds = compareCore o c "" opts ex cfg := by
  induction n using Nat.strong_induction_on with
  | _ n IH =>
  intro o c opts ex cfg ds hsz ho hc hok
  cases o with
  | null => simp [Value.isCont, Value.isDict, Value.isList] at ho
  | bool b => simp [Value.isCont, Value.isDict, Value.isList] at ho
  | int m => simp [Value.isCont, Value.isDict, Value.isList] at ho
  | float f => simp [Value.isCont, Value.isDict, Value.isList] at ho
  | str s => simp [Value.isCont, Value.isDict, Value.isList] at ho
  | list xs =>
    cases c with
    | list ys =>
      simp only [compareRoot] at hok
      injection hok with h
      subst h
      simp only [compareCore]
    | map b =>
      simp only [compareRoot] at hok
      injection hok with h
      subst h
      simp only [compareCore]
    | _ => simp [Value.isCont, Value.isDict, Value.isList] at hc
  | map a =>
    cases c with
    | list ys =>
      simp only [compareRoot] at hok
      injection hok with h
      subst h
      simp only [compareCore]
    | map b =>
      have hb2 : ∀ kv ∈ a, sizeOf (Prod.snd kv) < n := by
        intro kv hkv
        have h1 : sizeOf kv < sizeOf a := List.sizeOf_lt_of_mem hkv
        have h2 : sizeOf (Value.map a) ≤ n := hsz
        obtain ⟨k, w⟩ := kv
        simp only [Prod.mk.sizeOf_spec, Value.map.sizeOf_spec] at h1 h2 ⊢
        omega
      have hkey : ∀ (a' : List (String × Value)), (∀ kv ∈ a', kv ∈ a) →
          ∀ (es : List Diff), entriesRoot a' b opts ex cfg = .ok es →
          es = compareDictEntries a' b "" opts ex cfg := by
        intro a'
        induction a' with
        | nil =>
          intro _ es hes
          simp only [entriesRoot] at hes
          injection hes with h
          subst h
          simp [compareDictEntries]
        | cons kv rest ihe =>
          intro hsub es hes
          obtain ⟨k, v⟩ := kv
          have hmem : (k, v) ∈ a := hsub _ (by simp)
          have hvlt : sizeOf v < n := hb2 (k, v) hmem
          simp only [entriesRoot] at hes
          cases ht : entriesRoot rest b opts ex cfg with
          | error e =>
            rw [ht] at hes
            by_cases hex : shouldExclude (keyPath "" k) ex = true
            · rw [if_pos hex] at hes
              simp at hes
            · rw [if_neg hex] at hes
              cases hlk : lookupVal k b with
              | none =>
                rw [hlk] at hes
                simp at hes
              | some w =>
                rw [hlk] at hes
                dsimp only at hes
                by_cases hvc : v.isCont = true
                · rw [if_pos hvc] at hes
                  by_cases hp : keyPath "" k = ""
                  · rw [if_pos hp] at hes
                    by_cases hwc : w.isCont = true
                    · rw [if_neg (by simp [hwc])] at hes
                      cases hr : compareRoot v w opts ex cfg with
                      | error e2 =>
                        rw [hr] at hes
                        simp at hes
                      | ok ds0 =>
                        rw [hr] at hes
                        simp at hes
                    · rw [if_pos (by simp_all)] at hes
                      simp at hes
                  · rw [if_neg hp] at hes
                    simp at hes
                · rw [if_neg hvc] at hes
                  simp at hes
          | ok ds' =>
            rw [ht] at hes
            have htail : ds' = compareDictEntries rest b "" opts ex cfg :=
              ihe (fun z h => hsub z (by simp [h])) ds' ht
            simp only [compareDictEntries]
            by_cases hex : shouldExclude (keyPath "" k) ex = true
            · rw [if_pos hex] at hes
              simp at hes
              subst hes
              rw [if_pos hex, htail]
              simp
            · rw [if_neg hex] at hes
              rw [if_neg hex]
              cases hlk : lookupVal k b with
              | none =>
                rw [hlk] at hes
                dsimp only at hes ⊢
                simp at hes
                subst hes
                rw [htail]
              | some w =>
                rw [hlk] at hes
                dsimp only at hes ⊢
                by_cases hvc : v.isCont = true
                · rw [if_pos hvc] at hes
                  rw [if_pos hvc]
                  by_cases hp : keyPath "" k = ""
                  · rw [if_pos hp] at hes
                    by_cases hwc : w.isCont = true
                    · rw [if_neg (by simp [hwc])] at hes
                      cases hr : compareRoot v w opts ex cfg with
                      | error e2 =>
                        rw [hr] at hes
                        simp at hes
                      | ok ds0 =>
                        rw [hr] at hes
                        simp at hes
                        subst hes
                        rw [htail, hp,
                          IH (sizeOf v) hvlt v w opts ex cfg ds0 le_rfl hvc hwc hr]
                    · rw [if_pos (by simp_all)] at hes
                      simp at hes
                  · rw [if_neg hp] at hes
                    simp at hes
                    subst hes
                    rw [htail]
                · rw [if_neg hvc] at hes
                  rw [if_neg hvc]
                  simp at hes
                  subst hes
                  rw [htail]
                  simp
      simp only [compareRoot] at hok
      cases he : entriesRoot a b opts ex cfg with
      | error e =>
        rw [he] at hok
        simp at hok
      | ok es =>
        rw [he] at hok
        simp at hok
        subst hok
        rw [hkey a (fun z h => h) es he]
        simp only [compareCore]
    | _ => simp [Value.isCont, Value.isDict, Value.isList] at hc

/-- **C1, counterexample.**  `float('nan')` compares unequal to itself in
Python, so self-comparison of a dict holding NaN reports a `ValueChanged` —
the identity fails on a well-formed container-rooted value. -/
theorem claim_C1_counterexample :
    compare_structures (.map [("v", .float .nan)]) (.map [("v", .float .nan)]) ""
        defaultOpts none none = .ok [⟨.valueChanged, "v"⟩]
    ∧ wfValue (.map [("v", .float .nan)]) = true
    ∧ (Value.map [("v", .float .nan)]).isCont = true := by
  refine ⟨?_, by decide, rfl⟩
  simp [compare_structures, compareRoot, entriesRoot, compareCore, compareDictEntries,
    compareLists, redundantScan,
    keyPath, shouldExclude, defaultExclude, defaultConfig, defaultOpts, splitDots,
    segMatchCode, formatPath, fmtAux, tryPat, lookupVal, isEquivalentValue, isSameType,
    typeOf, pyEq, pyEqFloat, Value.isCont, Value.isDict, Value.isList, Value.isFloat,
    pyIsInstNum, pyIsInstInt, wildSuffix] <;>
    first | rfl | decide

/-- **C1, amended.**  For every well-formed value whose root is a map or a
sequence and which contains no `float('nan')`, comparing it with itself
under any options, any exclusion set and any contrast configuration yields
an empty difference sequence.  (Without the NaN-freeness hypothesis the
claim is false — see the counterexample.) -/
theorem claim_C1 (X : Value) (opts : Opts) (exf : Option (List String))
    (cfg : Option Config) (hwf : wfValue X = true) (hc : X.isCont = true)
    (hnn : noNan X = true) :
    compare_structures X X "" opts exf cfg = .ok [] := by
  unfold compare_structures
  rw [if_pos rfl, if_neg (by simp [hc])]
  exact rootIdentity (sizeOf X) X opts _ _ le_rfl hwf hnn

/-- Witness for C1 on a nested concrete value. -/
theorem claim_C1_witness :
    compare_structures
      (.map [("a", .list [.int 1, .str "x", .map [("k", .null)]]), ("b", .bool true)])
      (.map [("a", .list [.int 1, .str "x", .map [("k", .null)]]), ("b", .bool true)])
      "" defaultOpts none none = .ok [] := by
  exact claim_C1 _ defaultOpts none none (by decide) (by decide) (by decide)

/-! ## Claim C10: the greedy pairing is injective -/

/-- The inner scan never returns an already-claimed current index. -/
theorem findMatchLoop_free {item : Value} {ct : Bool} {cfg : Config}
    {matched : List Nat} :
    ∀ (cs : List Value) (j r : Nat),
      findMatchLoop item ct cfg matched j cs = some r → matched.contains r = false := by
  intro cs
  induction cs with
  | nil => intro j r h; simp [findMatchLoop] at h
  | cons c cs' ih =>
    intro j r h
    rw [findMatchLoop] at h
    split_ifs at h with h1 h2
    · exact ih (j + 1) r h
    · cases h
      exact Bool.not_eq_true _ ▸ h1
    · exact ih (j + 1) r h

/-- Invariants of the greedy outer loop: the claimed-index list mirrors the
second components of the pairs, origin components stay below the counter,
and both projections stay duplicate-free. -/
theorem greedyLoop_nodup (cur : List Value) (ct : Bool) (cfg : Config) :
    ∀ (os : List Value) (i : Nat) (pairs : List (Nat × Nat)) (matched : List Nat),
      matched = pairs.map Prod.snd → (∀ pq ∈ pairs, pq.1 < i) →
      (pairs.map Prod.fst).Nodup → matched.Nodup →
      ((greedyLoop cur ct cfg os i pairs matched).1.map Prod.fst).Nodup
      ∧ ((greedyLoop cur ct cfg os i pairs matched).1.map Prod.snd).Nodup := by
  intro os
  induction os with
  | nil =>
    intro i pairs matched hm hlt hf hs
    rw [greedyLoop]
    exact ⟨hf, hm ▸ hs⟩
  | cons o os' ih =>
    intro i pairs matched hm hlt hf hs
    rw [greedyLoop]
    cases hfm : findMatchLoop o ct cfg matched 0 cur with
    | none =>
      exact ih (i + 1) pairs matched hm (fun pq h => Nat.lt_succ_of_lt (hlt pq h)) hf hs
    | some j =>
      have hfree : matched.contains j = false := findMatchLoop_free cur 0 j hfm
      have hjm : j ∉ matched := by
        intro hmem
        rw [contains_iff_mem.mpr hmem] at hfree
        exact absurd hfree (by simp)
      refine ih (i + 1) (pairs ++ [(i, j)]) (matched ++ [j]) ?_ ?_ ?_ ?_
      · simp [hm]
      · intro pq hpq
        rcases List.mem_append.mp hpq with h | h
        · exact Nat.lt_succ_of_lt (hlt pq h)
        · simp at h
          simp [h]
      · rw [List.map_append, List.nodup_append]
        refine ⟨hf, by simp, ?_⟩
        intro t ht
        simp only [List.map_cons, List.map_nil, List.mem_singleton]
        intro hti
        subst hti
        exact absurd (hlt _ (List.mem_map.mp ht).choose_spec.1) (by
          have := (List.mem_map.mp ht).choose_spec.2
          omega)
      · rw [List.nodup_append]
        exact ⟨hs, by simp, by
          intro t ht
          simp only [List.mem_singleton]
          intro htj
          subst htj
          exact hjm ht⟩

/-- **C10.** The pairing constructed by order-insensitive list matching is
injective: no origin index and no current index occurs twice among the
matched pairs. -/
theorem claim_C10 (originList currentList : List Value) (ct : Bool) (cfg : Config) :
    (((greedyMatch originList currentList ct cfg).1.map Prod.fst).Nodup)
    ∧ (((greedyMatch originList currentList ct cfg).1.map Prod.snd).Nodup) := by
  unfold greedyMatch
  exact greedyLoop_nodup currentList ct cfg originList 0 [] [] rfl (by simp) (by simp) (by simp)

/-! ## Claim C6: the order-insensitive matching discipline -/

/-- The scanning loop agrees with the first-free-match rule on any suffix. -/
theorem findMatchLoop_eq (item : Value) (ct : Bool) (cfg : Config)
    (taken : List Nat) (cur : List Value) :
    ∀ (cs : List Value) (j : Nat), cs = cur.drop j →
      findMatchLoop item ct cfg taken j cs
        = (List.range' j (cur.length - j)).find?
            (fun r => !(taken.contains r) && itemsMatch item cur[r]! ct cfg) := by
  intro cs
  induction cs with
  | nil =>
    intro j hcs
    have hlen : cur.length ≤ j := List.drop_eq_nil_iff.mp hcs.symm
    have : cur.length - j = 0 := by omega
    rw [this]
    simp [findMatchLoop]
  | cons c cs' ih =>
    intro j hcs
    have hj : j < cur.length := by
      by_contra h
      have hnil : cur.drop j = [] := List.drop_eq_nil_iff.mpr (by omega)
      rw [hnil] at hcs
      simp at hcs
    have hdrop : cur.drop j = cur[j] :: cur.drop (j + 1) := List.drop_eq_getElem_cons hj
    rw [hdrop] at hcs
    injection hcs with he1 he2
    have hn : cur.length - j = (cur.length - (j + 1)) + 1 := by omega
    rw [hn, List.range'_succ, List.find?_cons]
    have hbang : cur[j]! = cur[j] := List.getElem!_of_getElem? (List.getElem?_eq_getElem hj)
    rw [findMatchLoop]
    by_cases h1 : taken.contains j = true
    · rw [if_pos h1]
      have hcond : (!(taken.contains j) && itemsMatch item cur[j]! ct cfg) = false := by
        rw [h1]
        rfl
      rw [hcond]
      exact ih (j + 1) he2
    · rw [if_neg h1]
      rw [Bool.not_eq_true] at h1
      by_cases h2 : itemsMatch item c ct cfg = true
      · rw [if_pos h2]
        have hcond : (!(taken.contains j) && itemsMatch item cur[j]! ct cfg) = true := by
          rw [hbang, ← he1, h1, h2]
          rfl
        rw [hcond]
      · rw [if_neg h2]
        have hcond : (!(taken.contains j) && itemsMatch item cur[j]! ct cfg) = false := by
          rw [hbang, ← he1, h1]
          show (true && itemsMatch item c ct cfg) = false
          rw [Bool.true_and]
          exact Bool.eq_false_iff.mpr h2
        rw [hcond]
        exact ih (j + 1) he2

/-- Every pair produced by the greedy loop binds in-range indices whose
elements deep-match. -/
theorem greedyLoop_sound (cur : List Value) (ct : Bool) (cfg : Config) (xs : List Value) :
    ∀ (os : List Value) (i : Nat), os = xs.drop i →
    ∀ (pairs : List (Nat × Nat)) (matched : List Nat),
      (∀ pq ∈ pairs, pq.1 < xs.length ∧ pq.2 < cur.length ∧
        itemsMatch xs[pq.1]! cur[pq.2]! ct cfg = true) →
      ∀ pq ∈ (greedyLoop cur ct cfg os i pairs matched).1,
        pq.1 < xs.length ∧ pq.2 < cur.length ∧
          itemsMatch xs[pq.1]! cur[pq.2]! ct cfg = true := by
  intro os
  induction os with
  | nil =>
    intro i _ pairs matched hinv pq hpq
    rw [greedyLoop] at hpq
    exact hinv pq hpq
  | cons o os' ih =>
    intro i hos pairs matched hinv pq hpq
    have hi : i < xs.length := by
      by_contra h
      have hnil : xs.drop i = [] := List.drop_eq_nil_iff.mpr (by omega)
      rw [hnil] at hos
      simp at hos
    have hdrop : xs.drop i = xs[i] :: xs.drop (i + 1) := List.drop_eq_getElem_cons hi
    rw [hdrop] at hos
    injection hos with he1 he2
    rw [greedyLoop] at hpq
    cases hfm : findMatchLoop o ct cfg matched 0 cur with
    | none =>
      rw [hfm] at hpq
      exact ih (i + 1) he2 pairs matched hinv pq hpq
    | some j =>
      rw [hfm] at hpq
      rw [findMatchLoop_eq o ct cfg matched cur cur 0 (by simp), Nat.sub_zero,
        ← List.range_eq_range'] at hfm
      have hpred := List.find?_some hfm
      have hj : j < cur.length := List.mem_range.mp (List.mem_of_find?_eq_some hfm)
      rw [Bool.and_eq_true] at hpred
      refine ih (i + 1) he2 _ _ ?_ pq hpq
      intro pq' hpq'
      rcases List.mem_append.mp hpq' with h | h
      · exact hinv pq' h
      · simp only [List.mem_singleton] at h
        subst h
        refine ⟨hi, hj, ?_⟩
        have hbx : xs[i]! = xs[i] := List.getElem!_of_getElem? (List.getElem?_eq_getElem hi)
        rw [hbx, ← he1]
        exact hpred.2

/-- `fmtAux` on the empty string. -/
theorem fmtAux_nil : fmtAux [] = [] := by
  rw [fmtAux]

/-- Unfolding `fmtAux` when no pattern starts at the head. -/
theorem fmtAux_cons_none {c : Char} {rest : List Char}
    (h : tryPat (c :: rest) = none) :
    fmtAux (c :: rest) = c :: fmtAux rest := by
  rw [fmtAux]
  split <;> simp_all

/-- Unfolding of one index of the order-sensitive loop when the origin
list has no element there. -/
theorem compareListsOrdered_cons_xnone {xs ys : List Value} {i : Nat}
    (hx : xs[i]? = none)
    (rest : List Nat) (path : String) (ct : Bool) (ex : List String) (cfg : Config) :
    compareListsOrdered xs ys (i :: rest) path ct ex cfg
      = (if shouldExclude (elemPath path i) ex then []
         else [⟨.listItemAdded, elemPath path i⟩])
        ++ compareListsOrdered xs ys rest path ct ex cfg := by
  rw [compareListsOrdered]
  congr 1
  dsimp only
  by_cases hex : shouldExclude (elemPath path i) ex = true
  · simp [hex]
  · rw [if_neg hex, if_neg hex]
    split <;> simp_all

/-- Unfolding of one index of the order-sensitive loop when only the
current list has no element there. -/
theorem compareListsOrdered_cons_ynone {xs ys : List Value} {i : Nat} {x : Value}
    (hx : xs[i]? = some x) (hy : ys[i]? = none)
    (rest : List Nat) (path : String) (ct : Bool) (ex : List String) (cfg : Config) :
    compareListsOrdered xs ys (i :: rest) path ct ex cfg
      = (if shouldExclude (elemPath path i) ex then []
         else [⟨.listItemRemoved, elemPath path i⟩])
        ++ compareListsOrdered xs ys rest path ct ex cfg := by
  rw [compareListsOrdered]
  congr 1
  dsimp only
  by_cases hex : shouldExclude (elemPath path i) ex = true
  · simp [hex]
  · rw [if_neg hex, if_neg hex]
    split <;> simp_all

/-- **C2, counterexample.**  Excluding `rows[*].link` does *not* preserve
the differences at `rows[i].title`: `_should_exclude` compares only as many
pattern segments as the tested path has, so the wildcard segment `rows[*]`
already matches the bare path `rows` and the whole `rows` subtree is
pruned.  With the exclusion the comparison is empty although both `link`
and `title` differ; without it the same comparison reports differences
below `rows`. -/
theorem claim_C2_counterexample :
    compare_structures
        (.map [("rows", .list [.map [("link", .str "a"), ("title", .str "t1")]])])
        (.map [("rows", .list [.map [("link", .str "b"), ("title", .str "t2")]])])
        "" defaultOpts (some ["rows[*].link"]) none = .ok []
    ∧ compare_structures
        (.map [("rows", .list [.map [("link", .str "a"), ("title", .str "t1")]])])
        (.map [("rows", .list [.map [("link", .str "b"), ("title", .str "t2")]])])
        "" defaultOpts (some []) none
      = .ok [⟨.listItemRemoved, "rows[0]"⟩, ⟨.listItemAdded, "rows[0]"⟩]
    ∧ shouldExclude "rows" ["rows[*].link"] = true
    ∧ shouldExclude "rows[0].title" ["rows[*].link"] = false := by
  have h1 : keyPath "" "rows" = "rows" := by
    simp only [keyPath, if_true]
    show (⟨fmtAux "rows".data⟩ : String) = "rows"
    congr 1
    show fmtAux ('r' :: 'o' :: 'w' :: 's' :: []) = _
    rw [fmtAux_cons_none (by decide), fmtAux_cons_none (by decide),
      fmtAux_cons_none (by decide), fmtAux_cons_none (by decide), fmtAux_nil]
  refine ⟨?_, ?_, by decide, by decide⟩ <;>
    (simp [compare_structures, compareRoot, entriesRoot, compareCore, compareDictEntries,
      compareLists,
      compareListsNative, processMatched, greedyMatch, greedyLoop, findMatchLoop,
      itemsMatch, itemsMatchEntries, itemsMatchList, redundantScan, h1, elemPath,
      natStr, natDigits, natDigitsGo, shouldExclude, defaultExclude, defaultConfig,
      defaultOpts, splitDots, segMatchCode, lookupVal, isEquivalentValue, isSameType,
      typeOf, pyEq, Value.isCont, Value.isDict, Value.isList, wildSuffix] <;>
      first | rfl | decide)

/-- With `check_value` on and an unexcluded call path, every emission site
of the differ is guarded by `_should_exclude`, so no returned record has a
path matched by the exclusion set. -/
theorem exclGuardAux (n : Nat) :
    ∀ (origin current : Value) (path : String) (opts : Opts) (ex : List String)
      (cfg : Config) (d : Diff), sizeOf origin ≤ n → opts.checkValue = true →
      shouldExclude path ex = false →
      d ∈ compareCore origin current path opts ex cfg →
      shouldExclude d.path ex = false := by
  induction n using Nat.strong_induction_on with
  | _ n IH =>
  intro origin current path opts ex cfg d hsz hv hpe hd
  have hmapCase : ∀ (a b : List (String × Value)),
      origin = .map a → current = .map b → shouldExclude d.path ex = false := by
    intro a b hoa hob
    subst hoa
    subst hob
    simp only [compareCore, List.mem_append] at hd
    have hbound : ∀ kv ∈ a, sizeOf kv.2 < n := by
      intro kv hkv
      have h1 : sizeOf kv < sizeOf a := List.sizeOf_lt_of_mem hkv
      have h2 : sizeOf (Value.map a) ≤ n := hsz
      obtain ⟨k, v⟩ := kv
      simp only [Prod.mk.sizeOf_spec, Value.map.sizeOf_spec] at h1 h2 ⊢
      omega
    clear hsz
    rcases hd with hd | hd
    · revert hbound hd
      induction a with
      | nil =>
        intro _ hd
        simp [compareDictEntries] at hd
      | cons kv rest iha =>
        intro hbound hd
        obtain ⟨key, originVal⟩ := kv
        simp only [compareDictEntries, List.mem_append] at hd
        rcases hd with hh | ht
        · split at hh
          · simp at hh
          · rename_i hse
            rw [Bool.not_eq_true] at hse
            split at hh
            · have hde := mem_ite_single hh
              subst hde
              exact hse
            · rename_i currentVal hlook
              split at hh
              · exact IH (sizeOf originVal) (hbound (key, originVal) (by simp))
                  originVal currentVal (keyPath path key) opts ex cfg d le_rfl hv hse hh
              · split at hh
                · simp at hh
                · split at hh
                  · simp only [List.mem_singleton] at hh
                    subst hh
                    exact hse
                  · split at hh
                    · simp only [List.mem_singleton] at hh
                      subst hh
                      exact hse
                    · simp at hh
        · exact iha (fun kv h => hbound kv (List.mem_cons_of_mem _ h)) ht
    · split at hd
      · simp only [redundantScan, List.mem_filterMap] at hd
        obtain ⟨kv, hkv, hf⟩ := hd
        split at hf
        · exact absurd hf (by simp)
        · split at hf
          · exact absurd hf (by simp)
          · rename_i hse
            rw [Bool.not_eq_true] at hse
            injection hf with hf1
            subst hf1
            exact hse
      · simp at hd
  have hlistCase : ∀ (xs ys : List Value),
      origin = .list xs → current = .list ys → shouldExclude d.path ex = false := by
    intro xs ys hoa hob
    subst hoa
    subst hob
    simp only [compareCore] at hd
    have hb : ∀ x ∈ xs, sizeOf x < n := by
      intro x hx
      have h1 : sizeOf x < sizeOf xs := List.sizeOf_lt_of_mem hx
      have h2 : sizeOf (Value.list xs) ≤ n := hsz
      simp only [Value.list.sizeOf_spec] at h2
      omega
    rw [compareLists] at hd
    rw [if_pos hv] at hd
    rw [compareListsNative] at hd
    split at hd
    · simp only [List.mem_append] at hd
      have key2 : ∀ (pairs : List (Nat × Nat)),
          ∀ d', d' ∈ processMatched pairs xs ys path opts.checkType ex cfg →
          shouldExclude d'.path ex = false := by
        intro pairs
        induction pairs with
        | nil =>
          intro d' hd'
          rw [processMatched] at hd'
          simp at hd'
        | cons pr rest ihp =>
          intro d' hd'
          obtain ⟨oi, ci⟩ := pr
          cases hx : xs[oi]? with
          | none =>
            rw [processMatched_cons_none (Or.inl hx)] at hd'
            exact ihp d' hd'
          | some x =>
            cases hy : ys[ci]? with
            | none =>
              rw [processMatched_cons_none (Or.inr hy)] at hd'
              exact ihp d' hd'
            | some y =>
              rw [processMatched_cons_some hx hy] at hd'
              simp only [List.mem_append] at hd'
              rcases hd' with hh | ht
              · split at hh
                · simp at hh
                · rename_i hse
                  rw [Bool.not_eq_true] at hse
                  split at hh
                  · exact IH (sizeOf x) (hb x (List.getElem?_mem hx)) x y
                      (elemPath path oi) ⟨true, true, false, opts.checkType⟩ ex cfg d'
                      le_rfl rfl hse hh
                  · split at hh
                    · have hde := mem_ite_single hh
                      subst hde
                      exact hse
                    · split at hh
                      · have hde := mem_ite_single hh
                        subst hde
                        exact hse
                      · split at hh
                        · simp at hh
                        · split at hh
                          · simp only [List.mem_singleton] at hh
                            subst hh
                            exact hse
                          · split at hh
                            · split at hh
                              · simp at hh
                              · simp only [List.mem_singleton] at hh
                                subst hh
                                exact hse
                            · simp at hh
              · exact ihp d' ht
      rcases hd with (hd | hd) | hd
      · rw [List.mem_filterMap] at hd
        obtain ⟨i, hi, hf⟩ := hd
        split at hf
        · exact absurd hf (by simp)
        · split at hf
          · exact absurd hf (by simp)
          · rename_i hse
            rw [Bool.not_eq_true] at hse
            injection hf with hf1
            subst hf1
            exact hse
      · rw [List.mem_filterMap] at hd
        obtain ⟨j, hj, hf⟩ := hd
        split at hf
        · exact absurd hf (by simp)
        · split at hf
          · exact absurd hf (by simp)
          · rename_i hse
            rw [Bool.not_eq_true] at hse
            injection hf with hf1
            subst hf1
            exact hse
      · exact key2 _ d hd
    · have key3 : ∀ (idxs : List Nat),
          ∀ d', d' ∈ compareListsOrdered xs ys idxs path opts.checkType ex cfg →
          shouldExclude d'.path ex = false := by
        intro idxs
        induction idxs with
        | nil =>
          intro d' hd'
          rw [compareListsOrdered] at hd'
          simp at hd'
        | cons i rest ihp =>
          intro d' hd'
          cases hx : xs[i]? with
          | none =>
            rw [compareListsOrdered_cons_xnone hx] at hd'
            simp only [List.mem_append] at hd'
            rcases hd' with hh | ht
            · split at hh
              · simp at hh
              · rename_i hse
                rw [Bool.not_eq_true] at hse
                simp only [List.mem_singleton] at hh
                subst hh
                exact hse
            · exact ihp d' ht
          | some x =>
            cases hy : ys[i]? with
            | none =>
              rw [compareListsOrdered_cons_ynone hx hy] at hd'
              simp only [List.mem_append] at hd'
              rcases hd' with hh | ht
              · split at hh
                · simp at hh
                · rename_i hse
                  rw [Bool.not_eq_true] at hse
                  simp only [List.mem_singleton] at hh
                  subst hh
                  exact hse
              · exact ihp d' ht
            | some y =>
              rw [compareListsOrdered_cons_some hx hy] at hd'
              simp only [List.mem_append] at hd'
              rcases hd' with hh | ht
              · split at hh
                · simp at hh
                · rename_i hse
                  rw [Bool.not_eq_true] at hse
                  split at hh
                  · exact IH (sizeOf x) (hb x (List.getElem?_mem hx)) x y
                      (elemPath path i) ⟨true, true, false, opts.checkType⟩ ex cfg d'
                      le_rfl rfl hse hh
                  · split at hh
                    · simp at hh
                    · split at hh
                      · simp only [List.mem_singleton] at hh
                        subst hh
                        exact hse
                      · split at hh
                        · split at hh
                          · simp at hh
                          · simp only [List.mem_singleton] at hh
                            subst hh
                            exact hse
                        · simp at hh
              · exact ihp d' ht
      exact key3 _ d hd
  cases origin with
  | map a =>
    cases current with
    | map b => exact hmapCase a b rfl rfl
    | _ =>
      simp only [compareCore] at hd
      first
      | (have hde := mem_ite_single hd; subst hde; exact hpe)
      | simp at hd
  | list xs =>
    cases current with
    | list ys => exact hlistCase xs ys rfl rfl
    | _ =>
      simp only [compareCore] at hd
      first
      | (have hde := mem_ite_single hd; subst hde; exact hpe)
      | simp at hd
  | _ =>
    cases current <;> simp only [compareCore] at hd <;>
      first
      | (have hde := mem_ite_single hd; subst hde; exact hpe)
      | simp at hd

/-- **C2, amended.**  With value checking on (the default) and a call path
that is not itself excluded, exclusion is absorbing in the sense of the
code's own membership test: every emission site of the differ is guarded
by `_should_exclude`, so no returned record has a path matched by any
pattern of the exclusion set.  The claim's scenario is corrected, not
confirmed: `_should_exclude` compares only as many pattern segments as the
tested path has, so the wildcard pattern `rows[*].link` already matches
the bare path `rows`, the whole `rows` subtree is pruned, and the
`rows[i].title` differences are *not* preserved. -/
theorem claim_C2 :
    (∀ (origin current : Value) (path : String) (opts : Opts) (ex : List String)
        (cfg : Config) (d : Diff), opts.checkValue = true →
        shouldExclude path ex = false →
        d ∈ compareCore origin current path opts ex cfg →
        shouldExclude d.path ex = false)
    ∧ compare_structures
        (.map [("rows", .list [.map [("link", .str "a"), ("title", .str "t1")]])])
        (.map [("rows", .list [.map [("link", .str "b"), ("title", .str "t2")]])])
        "" defaultOpts (some ["rows[*].link"]) none = .ok [] := by
  constructor
  · intro origin current path opts ex cfg d hv hpe hd
    exact exclGuardAux (sizeOf origin) origin current path opts ex cfg d le_rfl hv hpe hd
  · have h1 : keyPath "" "rows" = "rows" := by
      simp only [keyPath, if_true]
      show (⟨fmtAux "rows".data⟩ : String) = "rows"
      congr 1
      show fmtAux ('r' :: 'o' :: 'w' :: 's' :: []) = _
      rw [fmtAux_cons_none (by decide), fmtAux_cons_none (by decide),
        fmtAux_cons_none (by decide), fmtAux_cons_none (by decide), fmtAux_nil]
    simp [compare_structures, compareRoot, entriesRoot, compareCore, compareDictEntries,
      compareLists,
      compareListsNative, processMatched, greedyMatch, greedyLoop, findMatchLoop,
      itemsMatch, itemsMatchEntries, itemsMatchList, redundantScan, h1, elemPath,
      natStr, natDigits, natDigitsGo, shouldExclude, defaultExclude, defaultConfig,
      defaultOpts, splitDots, segMatchCode, lookupVal, isEquivalentValue, isSameType,
      typeOf, pyEq, Value.isCont, Value.isDict, Value.isList, wildSuffix] <;>
      first | rfl | decide

/-- Witness for the amended C2: a value change at `a.k` under exclusion
set `b.z` — neither the call path `a` nor the record path `a.k` is
excluded. -/
theorem claim_C2_witness : shouldExclude "a.k" ["b.z"] = false := by
  have h1 : keyPath "a" "k" = "a.k" := by
    simp only [keyPath]
    rw [if_neg (by decide)]
    show (⟨fmtAux ("a" ++ "." ++ "k").data⟩ : String) = "a.k"
    have hdd : ("a" ++ "." ++ "k").data = "a.k".data := by decide
    rw [hdd]
    congr 1
    show fmtAux ('a' :: '.' :: 'k' :: []) = _
    rw [fmtAux_cons_none (by decide), fmtAux_cons_none (by decide),
      fmtAux_cons_none (by decide), fmtAux_nil]
  have hcore : compareCore (.map [("k", .int 1)]) (.map [("k", .int 2)]) "a" defaultOpts
      ["b.z"] defaultConfig = [⟨.valueChanged, "a.k"⟩] := by
    simp [compareCore, compareDictEntries, compareLists, redundantScan, h1, shouldExclude,
      defaultConfig, defaultOpts, splitDots, segMatchCode, lookupVal, isEquivalentValue,
      isSameType, typeOf, pyEq, Value.isCont, Value.isDict, Value.isList, wildSuffix] <;>
      first | rfl | decide
  refine claim_C2.1 (.map [("k", .int 1)]) (.map [("k", .int 2)]) "a" defaultOpts ["b.z"]
    defaultConfig ⟨.valueChanged, "a.k"⟩ rfl (by decide) ?_
  rw [hcore]
  simp

/-! ## Claim C5: missing/redundant symmetry -/

/-- The options of the claim's missing side: all defaults
(`check_missing` is already on by default). -/
def optsM : Opts := ⟨true, true, false, true⟩

/-- The options of the claim's redundant side: the defaults plus
`check_redundant`. -/
def optsR : Opts := ⟨true, true, true, true⟩

/-- The paths carried by the records of one difference kind. -/
def diffPaths (k : DiffKind) (ds : List Diff) : List String :=
  (ds.filter fun d => d.kind == k).map Diff.path

mutual
/-- Compatibility of two structures for the missing/redundant symmetry: no
dict position, reached through common keys, holds `null` on the first side
and a container on the second. -/
def compatB : Value → Value → Bool
  | .null, .map _ => false
  | .null, .list _ => false
  | .map a, .map b => compatEntries a b
  | _, _ => true

/-- The entry loop of `compatB`: check every common key. -/
def compatEntries : List (String × Value) → List (String × Value) → Bool
  | [], _ => true
  | (k, v) :: rest, b =>
    (match lookupVal k b with
     | some w => compatB v w
     | none => true) && compatEntries rest b
end

/-- A succeeding lookup exhibits a member. -/
theorem lookup_mem {k : String} {w : Value} : ∀ {b : List (String × Value)},
    lookupVal k b = some w → (k, w) ∈ b := by
  intro b
  induction b with
  | nil => intro h; simp [lookupVal] at h
  | cons kv rest ih =>
    intro h
    obtain ⟨k', v'⟩ := kv
    rw [lookupVal] at h
    split at h
    · rename_i hk
      injection h with h1
      subst hk
      subst h1
      exact List.mem_cons_self _ _
    · exact List.mem_cons_of_mem _ (ih h)

/-- The two components of dict well-formedness. -/
theorem wfMap_parts {A : List (String × Value)} (h : wfValue (.map A) = true) :
    nodupKeys A = true ∧ wfEntries A = true := by
  rw [wfValue] at h
  exact Bool.and_eq_true_iff.mp h

/-- Compatibility descends to a common key. -/
theorem compatEntries_mem {b : List (String × Value)} {k : String} {v w : Value} :
    ∀ {a : List (String × Value)}, compatEntries a b = true → (k, v) ∈ a →
      lookupVal k b = some w → compatB v w = true := by
  intro a
  induction a with
  | nil => intro _ hm; simp at hm
  | cons kv rest ih =>
    intro h hm hlk
    obtain ⟨k', v'⟩ := kv
    rw [compatEntries, Bool.and_eq_true] at h
    rcases List.mem_cons.mp hm with heq | hm2
    · injection heq with he1 he2
      subst he1
      subst he2
      have h1 := h.1
      rw [hlk] at h1
      exact h1
    · exact ih h.2 hm2 hlk

/-- Membership in the path projection of one kind. -/
theorem diffPaths_mem {k : DiffKind} {ds : List Diff} {q : String} :
    q ∈ diffPaths k ds ↔ ∃ d, d ∈ ds ∧ d.kind = k ∧ d.path = q := by
  simp [diffPaths, List.mem_map, List.mem_filter, and_assoc]

/-- A dict-entry recursion site is contained in the dict loop's output. -/
theorem dictEntries_sub {A : List (String × Value)} {path : String} {opts : Opts}
    {ex : List String} {cfg : Config} {k : String} {w v : Value} {d : Diff} :
    ∀ {B : List (String × Value)}, (k, w) ∈ B →
    shouldExclude (keyPath path k) ex = false → lookupVal k A = some v →
    w.isCont = true → d ∈ compareCore w v (keyPath path k) opts ex cfg →
    d ∈ compareDictEntries B A path opts ex cfg := by
  intro B
  induction B with
  | nil => intro hm; simp at hm
  | cons kv rest ih =>
    intro hm hg hlk hc hd
    obtain ⟨k', w'⟩ := kv
    rw [compareDictEntries]
    rcases List.mem_cons.mp hm with heq | hm2
    · injection heq with he1 he2
      subst he1
      subst he2
      apply List.mem_append_left
      simp only [hg, Bool.false_eq_true, if_false, hlk, hc, if_true]
      exact hd
    · exact List.mem_append_right _ (ih hm2 hg hlk hc hd)

/-- A missing absent-key record is contained in the dict loop's output
(missing side, `check_missing` on). -/
theorem dictEntries_missing {B : List (String × Value)} {path : String}
    {ex : List String} {cfg : Config} {k : String} {v : Value} :
    ∀ {A : List (String × Value)}, (k, v) ∈ A →
    shouldExclude (keyPath path k) ex = false → lookupVal k B = none →
    (⟨.missingField, keyPath path k⟩ : Diff) ∈ compareDictEntries A B path optsM ex cfg := by
  intro A
  induction A with
  | nil => intro hm; simp at hm
  | cons kv rest ih =>
    intro hm hg hlk
    obtain ⟨k', v'⟩ := kv
    rw [compareDictEntries]
    rcases List.mem_cons.mp hm with heq | hm2
    · injection heq with he1 he2
      subst he1
      subst he2
      apply List.mem_append_left
      simp only [hg, Bool.false_eq_true, if_false, hlk, optsM, if_true]
      simp
    · exact List.mem_append_right _ (ih hm2 hg hlk)

/-- A redundant absent-key record is contained in the redundant scan. -/
theorem redundantScan_mem {B A : List (String × Value)} {path : String}
    {ex : List String} {k : String} {v : Value} (hm : (k, v) ∈ A)
    (hg : shouldExclude (keyPath path k) ex = false) (hlk : lookupVal k B = none) :
    (⟨.redundantField, keyPath path k⟩ : Diff) ∈ redundantScan B A path ex := by
  rw [redundantScan]
  apply List.mem_filterMap.mpr
  refine ⟨(k, v), hm, ?_⟩
  simp [hlk, hg]

/-- With `check_redundant` off, the differ never emits a `RedundantField`
record anywhere (the matched-pair list recursion also keeps it off). -/
theorem noRedundantAux (n : Nat) :
    ∀ (origin current : Value) (path : String) (opts : Opts) (ex : List String)
      (cfg : Config) (d : Diff), sizeOf origin ≤ n → opts.checkRedundant = false →
      d ∈ compareCore origin current path opts ex cfg → d.kind ≠ .redundantField := by
  induction n using Nat.strong_induction_on with
  | _ n IH =>
  intro origin current path opts ex cfg d hsz hr hd
  have hmapCase : ∀ (a b : List (String × Value)),
      origin = .map a → current = .map b → d.kind ≠ .redundantField := by
    intro a b hoa hob
    subst hoa
    subst hob
    simp only [compareCore, List.mem_append] at hd
    have hbound : ∀ kv ∈ a, sizeOf kv.2 < n := by
      intro kv hkv
      have h1 : sizeOf kv < sizeOf a := List.sizeOf_lt_of_mem hkv
      have h2 : sizeOf (Value.map a) ≤ n := hsz
      obtain ⟨k, v⟩ := kv
      simp only [Prod.mk.sizeOf_spec, Value.map.sizeOf_spec] at h1 h2 ⊢
      omega
    clear hsz
    rcases hd with hd | hd
    · revert hbound hd
      induction a with
      | nil =>
        intro _ hd
        simp [compareDictEntries] at hd
      | cons kv rest iha =>
        intro hbound hd
        obtain ⟨key, originVal⟩ := kv
        simp only [compareDictEntries, List.mem_append] at hd
        rcases hd with hh | ht
        · split at hh
          · simp at hh
          · split at hh
            · have hde := mem_ite_single hh
              subst hde
              simp
            · rename_i currentVal hlook
              split at hh
              · exact IH (sizeOf originVal) (hbound (key, originVal) (by simp))
                  originVal currentVal (keyPath path key) opts ex cfg d le_rfl hr hh
              · split at hh
                · split at hh
                  · simp at hh
                  · split at hh
                    · simp only [List.mem_singleton] at hh
                      subst hh
                      simp
                    · split at hh
                      · simp only [List.mem_singleton] at hh
                        subst hh
                        simp
                      · simp at hh
                · obtain ⟨hde, -⟩ := specialValueCheck_mem hh
                  subst hde
                  simp
        · exact iha (fun kv h => hbound kv (List.mem_cons_of_mem _ h)) ht
    · rw [hr] at hd
      simp at hd
  have hlistCase : ∀ (xs ys : List Value),
      origin = .list xs → current = .list ys → d.kind ≠ .redundantField := by
    intro xs ys hoa hob
    subst hoa
    subst hob
    simp only [compareCore] at hd
    have hb : ∀ x ∈ xs, sizeOf x < n := by
      intro x hx
      have h1 : sizeOf x < sizeOf xs := List.sizeOf_lt_of_mem hx
      have h2 : sizeOf (Value.list xs) ≤ n := hsz
      simp only [Value.list.sizeOf_spec] at h2
      omega
    rw [compareLists] at hd
    split at hd
    · rw [compareListsNative] at hd
      split at hd
      · simp only [List.mem_append] at hd
        have key2 : ∀ (pairs : List (Nat × Nat)),
            ∀ d', d' ∈ processMatched pairs xs ys path opts.checkType ex cfg →
            d'.kind ≠ .redundantField := by
          intro pairs
          induction pairs with
          | nil =>
            intro d' hd'
            rw [processMatched] at hd'
            simp at hd'
          | cons pr rest ihp =>
            intro d' hd'
            obtain ⟨oi, ci⟩ := pr
            cases hx : xs[oi]? with
            | none =>
              rw [processMatched_cons_none (Or.inl hx)] at hd'
              exact ihp d' hd'
            | some x =>
              cases hy : ys[ci]? with
              | none =>
                rw [processMatched_cons_none (Or.inr hy)] at hd'
                exact ihp d' hd'
              | some y =>
                rw [processMatched_cons_some hx hy] at hd'
                simp only [List.mem_append] at hd'
                rcases hd' with hh | ht
                · split at hh
                  · simp at hh
                  · split at hh
                    · exact IH (sizeOf x) (hb x (List.getElem?_mem hx)) x y
                        (elemPath path oi) ⟨true, true, false, opts.checkType⟩ ex cfg d'
                        le_rfl rfl hh
                    · split at hh
                      · have hde := mem_ite_single hh
                        subst hde
                        simp
                      · split at hh
                        · have hde := mem_ite_single hh
                          subst hde
                          simp
                        · split at hh
                          · simp at hh
                          · split at hh
                            · simp only [List.mem_singleton] at hh
                              subst hh
                              simp
                            · split at hh
                              · split at hh
                                · simp at hh
                                · simp only [List.mem_singleton] at hh
                                  subst hh
                                  simp
                              · simp at hh
                · exact ihp d' ht
        rcases hd with (hd | hd) | hd
        · rw [List.mem_filterMap] at hd
          obtain ⟨i, hi, hf⟩ := hd
          split at hf
          · exact absurd hf (by simp)
          · split at hf
            · exact absurd hf (by simp)
            · injection hf with hf1
              subst hf1
              simp
        · rw [List.mem_filterMap] at hd
          obtain ⟨j, hj, hf⟩ := hd
          split at hf
          · exact absurd hf (by simp)
          · split at hf
            · exact absurd hf (by simp)
            · injection hf with hf1
              subst hf1
              simp
        · exact key2 _ d hd
      · have key3 : ∀ (idxs : List Nat),
            ∀ d', d' ∈ compareListsOrdered xs ys idxs path opts.checkType ex cfg →
            d'.kind ≠ .redundantField := by
          intro idxs
          induction idxs with
          | nil =>
            intro d' hd'
            rw [compareListsOrdered] at hd'
            simp at hd'
          | cons i rest ihp =>
            intro d' hd'
            cases hx : xs[i]? with
            | none =>
              rw [compareListsOrdered_cons_xnone hx] at hd'
              simp only [List.mem_append] at hd'
              rcases hd' with hh | ht
              · split at hh
                · simp at hh
                · simp only [List.mem_singleton] at hh
                  subst hh
                  simp
              · exact ihp d' ht
            | some x =>
              cases hy : ys[i]? with
              | none =>
                rw [compareListsOrdered_cons_ynone hx hy] at hd'
                simp only [List.mem_append] at hd'
                rcases hd' with hh | ht
                · split at hh
                  · simp at hh
                  · simp only [List.mem_singleton] at hh
                    subst hh
                    simp
                · exact ihp d' ht
              | some y =>
                rw [compareListsOrdered_cons_some hx hy] at hd'
                simp only [List.mem_append] at hd'
                rcases hd' with hh | ht
                · split at hh
                  · simp at hh
                  · split at hh
                    · exact IH (sizeOf x) (hb x (List.getElem?_mem hx)) x y
                        (elemPath path i) ⟨true, true, false, opts.checkType⟩ ex cfg d'
                        le_rfl rfl hh
                    · split at hh
                      · simp at hh
                      · split at hh
                        · simp only [List.mem_singleton] at hh
                          subst hh
                          simp
                        · split at hh
                          · split at hh
                            · simp at hh
                            · simp only [List.mem_singleton] at hh
                              subst hh
                              simp
                          · simp at hh
                · exact ihp d' ht
        exact key3 _ d hd
    · have key1 : ∀ (xs' ys' : List Value) (i : Nat), (∀ x ∈ xs', sizeOf x < n) →
          ∀ d', d' ∈ compareListsNoValue xs' ys' i path opts ex cfg →
          d'.kind ≠ .redundantField := by
        intro xs'
        induction xs' with
        | nil =>
          intro ys' i _ d' hd'
          simp [compareListsNoValue] at hd'
        | cons x rest ihx =>
          intro ys' i hbx d' hd'
          cases ys' with
          | nil => simp [compareListsNoValue] at hd'
          | cons y ys'' =>
            simp only [compareListsNoValue, List.mem_append] at hd'
            rcases hd' with hh | ht
            · split at hh
              · exact IH (sizeOf x) (hbx x (by simp)) x y (elemPath path i) opts
                  ex cfg d' le_rfl hr hh
              · simp only [List.mem_append] at hh
                rcases hh with hh | hh
                · obtain ⟨hde, -⟩ := specialValueCheck_mem hh
                  subst hde
                  simp
                · have hde := mem_ite_single hh
                  subst hde
                  simp
            · exact ihx ys'' (i + 1) (fun z h => hbx z (List.mem_cons_of_mem _ h)) d' ht
      exact key1 xs ys 0 hb d hd
  cases origin with
  | map a =>
    cases current with
    | map b => exact hmapCase a b rfl rfl
    | _ =>
      simp only [compareCore] at hd
      first
      | (rw [hr] at hd; simp at hd)
      | (have hde := mem_ite_single hd; subst hde; simp)
      | simp at hd
  | list xs =>
    cases current with
    | list ys => exact hlistCase xs ys rfl rfl
    | _ =>
      simp only [compareCore] at hd
      first
      | (rw [hr] at hd; simp at hd)
      | (have hde := mem_ite_single hd; subst hde; simp)
      | simp at hd
  | _ =>
    cases current <;> simp only [compareCore] at hd <;>
      first
      | (rw [hr] at hd; simp at hd)
      | (have hde := mem_ite_single hd; subst hde; simp)
      | simp at hd

/-- A list-against-list comparison (value checking on) never emits a
`RedundantField`, whatever the `check_redundant` flag: the entry level
emits only list-item records and the matched-pair recursion turns the
flag off. -/
theorem noRedundantLists (xs ys : List Value) (path : String) (opts : Opts)
    (ex : List String) (cfg : Config) (d : Diff) (hv : opts.checkValue = true)
    (hd : d ∈ compareCore (.list xs) (.list ys) path opts ex cfg) :
    d.kind ≠ .redundantField := by
  simp only [compareCore] at hd
  rw [compareLists] at hd
  rw [if_pos hv] at hd
  rw [compareListsNative] at hd
  split at hd
  · simp only [List.mem_append] at hd
    have key2 : ∀ (pairs : List (Nat × Nat)),
        ∀ d', d' ∈ processMatched pairs xs ys path opts.checkType ex cfg →
        d'.kind ≠ .redundantField := by
      intro pairs
      induction pairs with
      | nil =>
        intro d' hd'
        rw [processMatched] at hd'
        simp at hd'
      | cons pr rest ihp =>
        intro d' hd'
        obtain ⟨oi, ci⟩ := pr
        cases hx : xs[oi]? with
        | none =>
          rw [processMatched_cons_none (Or.inl hx)] at hd'
          exact ihp d' hd'
        | some x =>
          cases hy : ys[ci]? with
          | none =>
            rw [processMatched_cons_none (Or.inr hy)] at hd'
            exact ihp d' hd'
          | some y =>
            rw [processMatched_cons_some hx hy] at hd'
            simp only [List.mem_append] at hd'
            rcases hd' with hh | ht
            · split at hh
              · simp at hh
              · split at hh
                · exact noRedundantAux (sizeOf x) x y (elemPath path oi)
                    ⟨true, true, false, opts.checkType⟩ ex cfg d' le_rfl rfl hh
                · split at hh
                  · have hde := mem_ite_single hh
                    subst hde
                    simp
                  · split at hh
                    · have hde := mem_ite_single hh
                      subst hde
                      simp
                    · split at hh
                      · simp at hh
                      · split at hh
                        · simp only [List.mem_singleton] at hh
                          subst hh
                          simp
                        · split at hh
                          · split at hh
                            · simp at hh
                            · simp only [List.mem_singleton] at hh
                              subst hh
                              simp
                          · simp at hh
            · exact ihp d' ht
    rcases hd with (hd | hd) | hd
    · rw [List.mem_filterMap] at hd
      obtain ⟨i, hi, hf⟩ := hd
      split at hf
      · exact absurd hf (by simp)
      · split at hf
        · exact absurd hf (by simp)
        · injection hf with hf1
          subst hf1
          simp
    · rw [List.mem_filterMap] at hd
      obtain ⟨j, hj, hf⟩ := hd
      split at hf
      · exact absurd hf (by simp)
      · split at hf
        · exact absurd hf (by simp)
        · injection hf with hf1
          subst hf1
          simp
    · exact key2 _ d hd
  · have key3 : ∀ (idxs : List Nat),
        ∀ d', d' ∈ compareListsOrdered xs ys idxs path opts.checkType ex cfg →
        d'.kind ≠ .redundantField := by
      intro idxs
      induction idxs with
      | nil =>
        intro d' hd'
        rw [compareListsOrdered] at hd'
        simp at hd'
      | cons i rest ihp =>
        intro d' hd'
        cases hx : xs[i]? with
        | none =>
          rw [compareListsOrdered_cons_xnone hx] at hd'
          simp only [List.mem_append] at hd'
          rcases hd' with hh | ht
          · split at hh
            · simp at hh
            · simp only [List.mem_singleton] at hh
              subst hh
              simp
          · exact ihp d' ht
        | some x =>
          cases hy : ys[i]? with
          | none =>
            rw [compareListsOrdered_cons_ynone hx hy] at hd'
            simp only [List.mem_append] at hd'
            rcases hd' with hh | ht
            · split at hh
              · simp at hh
              · simp only [List.mem_singleton] at hh
                subst hh
                simp
            · exact ihp d' ht
          | some y =>
            rw [compareListsOrdered_cons_some hx hy] at hd'
            simp only [List.mem_append] at hd'
            rcases hd' with hh | ht
            · split at hh
              · simp at hh
              · split at hh
                · exact noRedundantAux (sizeOf x) x y (elemPath path i)
                    ⟨true, true, false, opts.checkType⟩ ex cfg d' le_rfl rfl hh
                · split at hh
                  · simp at hh
                  · split at hh
                    · simp only [List.mem_singleton] at hh
                      subst hh
                      simp
                    · split at hh
                      · split at hh
                        · simp at hh
                        · simp only [List.mem_singleton] at hh
                          subst hh
                          simp
                      · simp at hh
            · exact ihp d' ht
    exact key3 _ d hd

/-- Under the default configuration (no type groups), `null` deep-matches
only `null`. -/
theorem itemsMatch_null {b : Value} {ct : Bool}
    (h : itemsMatch .null b ct defaultConfig = true) : b = .null := by
  cases b <;>
    first
    | rfl
    | (exfalso
       revert h
       simp [itemsMatch, isSameType, typeOf, Value.isCont, defaultConfig,
         typeConversionJudgment, pyEq])

/-- The dict loop of `_items_match` aligns every origin key with a
matching current value. -/
theorem itemsMatchEntries_mem {B : List (String × Value)} {ct : Bool} {cfg : Config}
    {k : String} {v : Value} :
    ∀ {A : List (String × Value)}, itemsMatchEntries A B ct cfg = true → (k, v) ∈ A →
      ∃ w, lookupVal k B = some w ∧ itemsMatch v w ct cfg = true := by
  intro A
  induction A with
  | nil => intro _ hm; simp at hm
  | cons kv rest ih =>
    intro h hm
    obtain ⟨k', v'⟩ := kv
    rw [itemsMatchEntries, Bool.and_eq_true] at h
    rcases List.mem_cons.mp hm with heq | hm2
    · injection heq with he1 he2
      subst he1
      subst he2
      have h1 := h.1
      cases hlk : lookupVal k B with
      | none =>
        rw [hlk] at h1
        exact absurd h1 (by simp)
      | some w =>
        rw [hlk] at h1
        exact ⟨w, rfl, h1⟩
    · exact ih h.2 hm2

/-- A deep match of two dicts aligns their entries. -/
theorem itemsMatch_map {A B : List (String × Value)} {ct : Bool}
    (h : itemsMatch (.map A) (.map B) ct defaultConfig = true) :
    itemsMatchEntries A B ct defaultConfig = true := by
  simp [itemsMatch, isSameType, typeOf, Value.isCont, Value.isDict, Value.isList,
    defaultConfig] at h
  exact h.2

/-- Under the default configuration, a comparison of two deep-matching
values — or of any two lists — with value checking on never emits a
`MissingField`: matched dicts have aligned key sets at every level, and
greedily matched list elements deep-match. -/
theorem noMissMatchedAux (n : Nat) :
    ∀ (a b : Value) (path : String) (opts : Opts) (ex : List String), sizeOf a ≤ n →
      opts.checkValue = true →
      (itemsMatch a b opts.checkType defaultConfig = true
        ∨ (∃ xs ys, a = .list xs ∧ b = .list ys)) →
      ∀ d ∈ compareCore a b path opts ex defaultConfig, d.kind ≠ .missingField := by
  induction n using Nat.strong_induction_on with
  | _ n IH =>
  intro a b path opts ex hsz hv hmatch d hd
  cases a with
  | null =>
    rcases hmatch with hm | ⟨xs, ys, hax, hby⟩
    · have hb := itemsMatch_null hm
      subst hb
      simp [compareCore] at hd
    · exact Value.noConfusion hax
  | map A =>
    cases b with
    | map B =>
      rcases hmatch with hm | ⟨xs, ys, hax, hby⟩
      · have hment := itemsMatch_map hm
        simp only [compareCore, List.mem_append] at hd
        have hbound : ∀ kv ∈ A, sizeOf kv.2 < n := by
          intro kv hkv
          have h1 : sizeOf kv < sizeOf A := List.sizeOf_lt_of_mem hkv
          have h2 : sizeOf (Value.map A) ≤ n := hsz
          obtain ⟨k, v⟩ := kv
          simp only [Prod.mk.sizeOf_spec, Value.map.sizeOf_spec] at h1 h2 ⊢
          omega
        clear hsz
        have key1 : ∀ (A' : List (String × Value)), (∀ kv ∈ A', sizeOf kv.2 < n) →
            itemsMatchEntries A' B opts.checkType defaultConfig = true →
            ∀ d', d' ∈ compareDictEntries A' B path opts ex defaultConfig →
            d'.kind ≠ .missingField := by
          intro A'
          induction A' with
          | nil =>
            intro _ _ d' hd'
            simp [compareDictEntries] at hd'
          | cons kv rest iha =>
            intro hbound' hment' d' hd'
            obtain ⟨key, originVal⟩ := kv
            rw [itemsMatchEntries, Bool.and_eq_true] at hment'
            simp only [compareDictEntries, List.mem_append] at hd'
            rcases hd' with hh | ht
            · split at hh
              · simp at hh
              · split at hh
                · rename_i hnone
                  have h1 := hment'.1
                  rw [hnone] at h1
                  exact absurd h1 (by simp)
                · rename_i currentVal hlook
                  have h1 : itemsMatch originVal currentVal opts.checkType defaultConfig
                      = true := by
                    have h2 := hment'.1
                    rw [hlook] at h2
                    exact h2
                  split at hh
                  · exact IH (sizeOf originVal) (hbound' (key, originVal) (by simp))
                      originVal currentVal (keyPath path key) opts ex le_rfl hv
                      (Or.inl h1) d' hh
                  · split at hh
                    · simp at hh
                    · split at hh
                      · simp only [List.mem_singleton] at hh
                        subst hh
                        simp
                      · split at hh
                        · simp only [List.mem_singleton] at hh
                          subst hh
                          simp
                        · simp at hh
            · exact iha (fun kv h => hbound' kv (List.mem_cons_of_mem _ h)) hment'.2 d' ht
        rcases hd with hd | hd
        · exact key1 A hbound hment d hd
        · split at hd
          · have hk := redundantScan_kind hd
            rw [hk]
            simp
          · simp at hd
      · exact Value.noConfusion hax
    | _ =>
      simp only [compareCore] at hd
      first
      | (have hde := mem_ite_single hd; subst hde; simp)
      | simp at hd
  | list xs =>
    have hby : ∃ ys, b = .list ys := by
      rcases hmatch with hm | ⟨xs', ys', hax, hby⟩
      · cases b with
        | list ys => exact ⟨ys, rfl⟩
        | _ =>
          exfalso
          revert hm
          simp [itemsMatch, isSameType, typeOf, Value.isCont, defaultConfig,
            typeConversionJudgment, pyEq]
      · exact ⟨ys', hby⟩
    obtain ⟨ys, hby⟩ := hby
    subst hby
    have hb : ∀ x ∈ xs, sizeOf x < n := by
      intro x hx
      have h1 : sizeOf x < sizeOf xs := List.sizeOf_lt_of_mem hx
      have h2 : sizeOf (Value.list xs) ≤ n := hsz
      simp only [Value.list.sizeOf_spec] at h2
      omega
    simp only [compareCore] at hd
    rw [compareLists] at hd
    rw [if_pos hv] at hd
    rw [compareListsNative] at hd
    rw [if_pos (show defaultConfig.ignoreOrder = true from rfl)] at hd
    simp only [List.mem_append] at hd
    have hsound : ∀ pq ∈ (greedyMatch xs ys opts.checkType defaultConfig).1,
        pq.1 < xs.length ∧ pq.2 < ys.length ∧
          itemsMatch xs[pq.1]! ys[pq.2]! opts.checkType defaultConfig = true := by
      intro pq hpq
      exact greedyLoop_sound ys opts.checkType defaultConfig xs xs 0 (by simp) [] []
        (by simp) pq hpq
    have key2 : ∀ (pairs : List (Nat × Nat)),
        (∀ pq ∈ pairs, pq.1 < xs.length ∧ pq.2 < ys.length ∧
          itemsMatch xs[pq.1]! ys[pq.2]! opts.checkType defaultConfig = true) →
        ∀ d', d' ∈ processMatched pairs xs ys path opts.checkType ex defaultConfig →
        d'.kind ≠ .missingField := by
      intro pairs
      induction pairs with
      | nil =>
        intro _ d' hd'
        rw [processMatched] at hd'
        simp at hd'
      | cons pr rest ihp =>
        intro hps d' hd'
        obtain ⟨oi, ci⟩ := pr
        cases hx : xs[oi]? with
        | none =>
          rw [processMatched_cons_none (Or.inl hx)] at hd'
          exact ihp (fun pq h => hps pq (List.mem_cons_of_mem _ h)) d' hd'
        | some x =>
          cases hy : ys[ci]? with
          | none =>
            rw [processMatched_cons_none (Or.inr hy)] at hd'
            exact ihp (fun pq h => hps pq (List.mem_cons_of_mem _ h)) d' hd'
          | some y =>
            rw [processMatched_cons_some hx hy] at hd'
            simp only [List.mem_append] at hd'
            rcases hd' with hh | ht
            · split at hh
              · simp at hh
              · split at hh
                · obtain ⟨-, -, him⟩ := hps (oi, ci) (by simp)
                  rw [List.getElem!_of_getElem? hx, List.getElem!_of_getElem? hy] at him
                  exact IH (sizeOf x) (hb x (List.getElem?_mem hx)) x y
                    (elemPath path oi) ⟨true, true, false, opts.checkType⟩ ex le_rfl rfl
                    (Or.inl him) d' hh
                · split at hh
                  · have hde := mem_ite_single hh
                    subst hde
                    simp
                  · split at hh
                    · have hde := mem_ite_single hh
                      subst hde
                      simp
                    · split at hh
                      · simp at hh
                      · split at hh
                        · simp only [List.mem_singleton] at hh
                          subst hh
                          simp
                        · split at hh
                          · split at hh
                            · simp at hh
                            · simp only [List.mem_singleton] at hh
                              subst hh
                              simp
                          · simp at hh
            · exact ihp (fun pq h => hps pq (List.mem_cons_of_mem _ h)) d' ht
    rcases hd with (hd | hd) | hd
    · rw [List.mem_filterMap] at hd
      obtain ⟨i, hi, hf⟩ := hd
      split at hf
      · exact absurd hf (by simp)
      · split at hf
        · exact absurd hf (by simp)
        · injection hf with hf1
          subst hf1
          simp
    · rw [List.mem_filterMap] at hd
      obtain ⟨j, hj, hf⟩ := hd
      split at hf
      · exact absurd hf (by simp)
      · split at hf
        · exact absurd hf (by simp)
        · injection hf with hf1
          subst hf1
          simp
    · exact key2 _ hsound d hd
  | _ =>
    cases b <;> simp only [compareCore] at hd <;>
      first
      | (have hde := mem_ite_single hd; subst hde; simp)
      | simp at hd

/-- Every `MissingField` of `compare(X, Y)` (defaults) has a
`RedundantField` at the same path in `compare(Y, X)` (defaults plus
`check_redundant`). -/
theorem missToRed (n : Nat) :
    ∀ (X Y : Value) (path : String) (ex : List String) (d : Diff), sizeOf X ≤ n →
      wfValue X = true → wfValue Y = true →
      d ∈ compareCore X Y path optsM ex defaultConfig → d.kind = .missingField →
      ∃ d', d' ∈ compareCore Y X path optsR ex defaultConfig ∧
        d'.kind = .redundantField ∧ d'.path = d.path := by
  induction n using Nat.strong_induction_on with
  | _ n IH =>
  intro X Y path ex d hsz hwX hwY hd hk
  cases X with
  | null =>
    cases Y with
    | null => simp [compareCore] at hd
    | _ =>
      simp only [compareCore] at hd
      have hde := mem_ite_single hd
      subst hde
      refine ⟨⟨.redundantField, path⟩, ?_, rfl, rfl⟩
      simp [compareCore, optsR]
  | map A =>
    cases Y with
    | map B =>
      obtain ⟨hndA, hweA⟩ := wfMap_parts hwX
      obtain ⟨hndB, hweB⟩ := wfMap_parts hwY
      simp only [compareCore, List.mem_append] at hd
      have hbound : ∀ kv ∈ A, sizeOf kv.2 < n := by
        intro kv hkv
        have h1 : sizeOf kv < sizeOf A := List.sizeOf_lt_of_mem hkv
        have h2 : sizeOf (Value.map A) ≤ n := hsz
        obtain ⟨k, v⟩ := kv
        simp only [Prod.mk.sizeOf_spec, Value.map.sizeOf_spec] at h1 h2 ⊢
        omega
      clear hsz
      rcases hd with hd | hd
      · have key1 : ∀ (A' : List (String × Value)), (∀ kv ∈ A', sizeOf kv.2 < n) →
            (∀ kv ∈ A', kv ∈ A) →
            ∀ d', d' ∈ compareDictEntries A' B path optsM ex defaultConfig →
            d'.kind = .missingField →
            ∃ d2, d2 ∈ compareCore (.map B) (.map A) path optsR ex defaultConfig ∧
              d2.kind = .redundantField ∧ d2.path = d'.path := by
          intro A'
          induction A' with
          | nil =>
            intro _ _ d' hd'
            simp [compareDictEntries] at hd'
          | cons kv rest iha =>
            intro hbound' hsub d' hd' hk'
            obtain ⟨key, originVal⟩ := kv
            simp only [compareDictEntries, List.mem_append] at hd'
            rcases hd' with hh | ht
            · split at hh
              · simp at hh
              · rename_i hse
                rw [Bool.not_eq_true] at hse
                split at hh
                · rename_i hnone
                  have hde := mem_ite_single hh
                  subst hde
                  refine ⟨⟨.redundantField, keyPath path key⟩, ?_, rfl, rfl⟩
                  simp only [compareCore]
                  apply List.mem_append_right
                  rw [if_pos (show optsR.checkRedundant = true from rfl)]
                  exact redundantScan_mem (hsub (key, originVal) (by simp)) hse hnone
                · rename_i currentVal hlook
                  have hmemA : (key, originVal) ∈ A := hsub (key, originVal) (by simp)
                  have hlkA : lookupVal key A = some originVal := lookup_nodup hndA hmemA
                  have hmemB : (key, currentVal) ∈ B := lookup_mem hlook
                  have hwv : wfValue originVal = true := wfEntries_mem hweA hmemA
                  have hwc : wfValue currentVal = true := wfEntries_mem hweB hmemB
                  split at hh
                  · rename_i hcont
                    cases originVal with
                    | map A2 =>
                      cases currentVal with
                      | map B2 =>
                        obtain ⟨d2, hd2, hk2, hp2⟩ := IH (sizeOf (Value.map A2))
                          (hbound' (key, .map A2) (by simp)) (.map A2) (.map B2)
                          (keyPath path key) ex d' le_rfl hwv hwc hh hk'
                        refine ⟨d2, ?_, hk2, hp2⟩
                        simp only [compareCore]
                        exact List.mem_append_left _
                          (dictEntries_sub hmemB hse hlkA rfl hd2)
                      | _ =>
                        simp only [compareCore] at hh
                        first
                        | (have hde := mem_ite_single hh; subst hde; simp at hk')
                        | simp [optsM] at hh
                    | list xs2 =>
                      cases currentVal with
                      | list ys2 =>
                        exact absurd hk' (noMissMatchedAux (sizeOf (Value.list xs2))
                          (.list xs2) (.list ys2) (keyPath path key) optsM ex le_rfl rfl
                          (Or.inr ⟨xs2, ys2, rfl, rfl⟩) d' hh)
                      | _ =>
                        simp only [compareCore] at hh
                        first
                        | (have hde := mem_ite_single hh; subst hde; simp at hk')
                        | simp [optsM] at hh
                    | _ =>
                      exfalso
                      simp [Value.isCont, Value.isDict, Value.isList] at hcont
                  · rw [if_pos (show optsM.checkValue = true from rfl)] at hh
                    split at hh
                    · simp at hh
                    · split at hh
                      · simp only [List.mem_singleton] at hh
                        subst hh
                        simp at hk'
                      · split at hh
                        · simp only [List.mem_singleton] at hh
                          subst hh
                          simp at hk'
                        · simp at hh
            · exact iha (fun kv h => hbound' kv (List.mem_cons_of_mem _ h))
                (fun kv h => hsub kv (List.mem_cons_of_mem _ h)) d' ht hk'
        exact key1 A hbound (fun kv h => h) d hd hk
      · simp [optsM] at hd
    | _ =>
      simp only [compareCore] at hd
      first
      | (have hde := mem_ite_single hd; subst hde; simp at hk)
      | simp at hd
  | list xs =>
    cases Y with
    | list ys =>
      exact absurd hk (noMissMatchedAux (sizeOf (Value.list xs)) (.list xs) (.list ys)
        path optsM ex le_rfl rfl (Or.inr ⟨xs, ys, rfl, rfl⟩) d hd)
    | _ =>
      simp only [compareCore] at hd
      first
      | (have hde := mem_ite_single hd; subst hde; simp at hk)
      | simp at hd
  | _ =>
    cases Y with
    | null =>
      simp only [compareCore] at hd
      have hde := mem_ite_single hd
      subst hde
      simp [optsM] at hk
    | _ =>
      simp only [compareCore] at hd
      first
      | (have hde := mem_ite_single hd; subst hde; simp at hk)
      | simp at hd

/-- Every `RedundantField` of `compare(Y, X)` (defaults plus
`check_redundant`) has a `MissingField` at the same path in
`compare(X, Y)` (defaults), under the compatibility side condition. -/
theorem redToMiss (n : Nat) :
    ∀ (X Y : Value) (path : String) (ex : List String) (d : Diff), sizeOf Y ≤ n →
      wfValue X = true → wfValue Y = true → compatB X Y = true →
      d ∈ compareCore Y X path optsR ex defaultConfig → d.kind = .redundantField →
      ∃ d', d' ∈ compareCore X Y path optsM ex defaultConfig ∧
        d'.kind = .missingField ∧ d'.path = d.path := by
  induction n using Nat.strong_induction_on with
  | _ n IH =>
  intro X Y path ex d hsz hwX hwY hcompat hd hk
  cases Y with
  | null =>
    cases X with
    | null => simp [compareCore] at hd
    | _ =>
      simp only [compareCore] at hd
      have hde := mem_ite_single hd
      subst hde
      simp [optsR] at hk
  | map B =>
    cases X with
    | map A =>
      obtain ⟨hndA, hweA⟩ := wfMap_parts hwX
      obtain ⟨hndB, hweB⟩ := wfMap_parts hwY
      rw [compatB] at hcompat
      simp only [compareCore, List.mem_append] at hd
      have hbound : ∀ kv ∈ B, sizeOf kv.2 < n := by
        intro kv hkv
        have h1 : sizeOf kv < sizeOf B := List.sizeOf_lt_of_mem hkv
        have h2 : sizeOf (Value.map B) ≤ n := hsz
        obtain ⟨k, v⟩ := kv
        simp only [Prod.mk.sizeOf_spec, Value.map.sizeOf_spec] at h1 h2 ⊢
        omega
      clear hsz
      rcases hd with hd | hd
      · have key1 : ∀ (B' : List (String × Value)), (∀ kv ∈ B', sizeOf kv.2 < n) →
            (∀ kv ∈ B', kv ∈ B) →
            ∀ d', d' ∈ compareDictEntries B' A path optsR ex defaultConfig →
            d'.kind = .redundantField →
            ∃ d2, d2 ∈ compareCore (.map A) (.map B) path optsM ex defaultConfig ∧
              d2.kind = .missingField ∧ d2.path = d'.path := by
          intro B'
          induction B' with
          | nil =>
            intro _ _ d' hd'
            simp [compareDictEntries] at hd'
          | cons kv rest iha =>
            intro hbound' hsub d' hd' hk'
            obtain ⟨key, w⟩ := kv
            simp only [compareDictEntries, List.mem_append] at hd'
            rcases hd' with hh | ht
            · split at hh
              · simp at hh
              · rename_i hse
                rw [Bool.not_eq_true] at hse
                split at hh
                · have hde := mem_ite_single hh
                  subst hde
                  simp [optsR] at hk'
                · rename_i v hlook
                  have hmemB : (key, w) ∈ B := hsub (key, w) (by simp)
                  have hlkB : lookupVal key B = some w := lookup_nodup hndB hmemB
                  have hmemA : (key, v) ∈ A := lookup_mem hlook
                  have hww : wfValue w = true := wfEntries_mem hweB hmemB
                  have hwv : wfValue v = true := wfEntries_mem hweA hmemA
                  have hcvw : compatB v w = true := compatEntries_mem hcompat hmemA hlkB
                  split at hh
                  · rename_i hcont
                    cases w with
                    | map B2 =>
                      cases v with
                      | map A2 =>
                        obtain ⟨d2, hd2, hk2, hp2⟩ := IH (sizeOf (Value.map B2))
                          (hbound' (key, .map B2) (by simp)) (.map A2) (.map B2)
                          (keyPath path key) ex d' le_rfl hwv hww hcvw hh hk'
                        refine ⟨d2, ?_, hk2, hp2⟩
                        simp only [compareCore]
                        exact List.mem_append_left _
                          (dictEntries_sub hmemA hse hlkB rfl hd2)
                      | null => simp [compatB] at hcvw
                      | _ =>
                        simp only [compareCore] at hh
                        first
                        | (have hde := mem_ite_single hh; subst hde; simp at hk')
                        | simp at hh
                    | list ys2 =>
                      cases v with
                      | list xs2 =>
                        exact absurd hk'
                          (noRedundantLists ys2 xs2 (keyPath path key) optsR ex
                            defaultConfig d' rfl hh)
                      | null => simp [compatB] at hcvw
                      | _ =>
                        simp only [compareCore] at hh
                        first
                        | (have hde := mem_ite_single hh; subst hde; simp at hk')
                        | simp at hh
                    | _ =>
                      exfalso
                      simp [Value.isCont, Value.isDict, Value.isList] at hcont
                  · rw [if_pos (show optsR.checkValue = true from rfl)] at hh
                    split at hh
                    · simp at hh
                    · split at hh
                      · simp only [List.mem_singleton] at hh
                        subst hh
                        simp at hk'
                      · split at hh
                        · simp only [List.mem_singleton] at hh
                          subst hh
                          simp at hk'
                        · simp at hh
            · exact iha (fun kv h => hbound' kv (List.mem_cons_of_mem _ h))
                (fun kv h => hsub kv (List.mem_cons_of_mem _ h)) d' ht hk'
        exact key1 B hbound (fun kv h => h) d hd hk
      · rw [if_pos (show optsR.checkRedundant = true from rfl)] at hd
        simp only [redundantScan, List.mem_filterMap] at hd
        obtain ⟨kv, hkv, hf⟩ := hd
        obtain ⟨k2, v2⟩ := kv
        split at hf
        · exact absurd hf (by simp)
        · rename_i hsome
          split at hf
          · exact absurd hf (by simp)
          · rename_i hse
            rw [Bool.not_eq_true] at hse
            injection hf with hf1
            subst hf1
            have hnone : lookupVal k2 B = none := by
              cases hlk : lookupVal k2 B with
              | none => rfl
              | some w2 =>
                exfalso
                apply hsome
                rw [hlk]
                rfl
            refine ⟨⟨.missingField, keyPath path k2⟩, ?_, rfl, rfl⟩
            simp only [compareCore]
            exact List.mem_append_left _ (dictEntries_missing hkv hse hnone)
    | null => simp [compatB] at hcompat
    | _ =>
      simp only [compareCore] at hd
      first
      | (have hde := mem_ite_single hd; subst hde; simp at hk)
      | simp at hd
  | list ys =>
    cases X with
    | list xs =>
      exact absurd hk (noRedundantLists ys xs path optsR ex defaultConfig d rfl hd)
    | null => simp [compatB] at hcompat
    | _ =>
      simp only [compareCore] at hd
      first
      | (have hde := mem_ite_single hd; subst hde; simp at hk)
      | simp at hd
  | _ =>
    cases X with
    | null =>
      simp only [compareCore] at hd
      have hde := mem_ite_single hd
      subst hde
      refine ⟨⟨.missingField, path⟩, ?_, rfl, rfl⟩
      simp [compareCore, optsM]
    | _ =>
      simp only [compareCore] at hd
      first
      | (have hde := mem_ite_single hd; subst hde; simp at hk)
      | simp at hd

/-- **C5, counterexample.**  A dict key holding `null` in `X` and a
container in `Y` breaks the symmetry: `compare(X, Y)` handles the null
value through the scalar branch (a `TypeConflict`, no `MissingField`),
while `compare(Y, X)` recurses through the container and reports a
`RedundantField` there — the two path sets differ. -/
theorem claim_C5_counterexample :
    compare_structures (.map [("k", .null)]) (.map [("k", .map [("a", .int 1)])]) ""
        optsM none none = .ok [⟨.typeConflict, "k"⟩]
    ∧ compare_structures (.map [("k", .map [("a", .int 1)])]) (.map [("k", .null)]) ""
        optsR none none = .ok [⟨.redundantField, "k"⟩]
    ∧ diffPaths .missingField [⟨.typeConflict, "k"⟩] = []
    ∧ diffPaths .redundantField [⟨.redundantField, "k"⟩] = ["k"]
    ∧ wfValue (.map [("k", .null)]) = true
    ∧ wfValue (.map [("k", .map [("a", .int 1)])]) = true := by
  have h0 : keyPath "" "k" = "k" := by
    simp only [keyPath, if_true]
    show (⟨fmtAux "k".data⟩ : String) = "k"
    congr 1
    show fmtAux ('k' :: []) = _
    rw [fmtAux_cons_none (by decide), fmtAux_nil]
  refine ⟨?_, ?_, by decide, by decide, by decide, by decide⟩ <;>
    (simp [compare_structures, compareRoot, entriesRoot, compareCore, compareDictEntries,
      compareLists,
      redundantScan, h0, optsM, optsR, shouldExclude, defaultExclude, defaultConfig,
      splitDots, segMatchCode, lookupVal, isEquivalentValue, isSameType,
      typeOf, pyEq, Value.isCont, Value.isDict, Value.isList, wildSuffix] <;>
      first | rfl | decide)

/-- **C5, amended.**  For well-formed inputs `X`, `Y` that are moreover
*compatible* — no dict position reached through common keys holds `null`
in `X` and a container in `Y` — the set of `MissingField` paths of
`compare(X, Y)` with `check_missing` on (the default) equals the set of
`RedundantField` paths of `compare(Y, X)` with `check_redundant` also on,
all other options at their defaults.  (Without the compatibility condition
the sets can differ — see the counterexample.) -/
theorem claim_C5 (X Y : Value) (exf : Option (List String)) (dsM dsR : List Diff)
    (hwX : wfValue X = true) (hwY : wfValue Y = true) (hcompat : compatB X Y = true)
    (hM : compare_structures X Y "" optsM exf none = .ok dsM)
    (hR : compare_structures Y X "" optsR exf none = .ok dsR) :
    ∀ q, q ∈ diffPaths .missingField dsM ↔ q ∈ diffPaths .redundantField dsR := by
  intro q
  simp only [compare_structures, Option.getD_none, if_true] at hM hR
  split at hM
  · exact absurd hM (by simp)
  · split at hR
    · exact absurd hR (by simp)
    · rename_i hMc hRc
      simp only [Bool.not_eq_true', Bool.not_eq_false, Bool.and_eq_true] at hMc hRc
      obtain ⟨hXc, hYc⟩ := hMc
      have hM1 := rootBridge (sizeOf X) X Y optsM _ _ dsM le_rfl hXc hYc hM
      have hR1 := rootBridge (sizeOf Y) Y X optsR _ _ dsR le_rfl hYc hXc hR
      subst hM1
      subst hR1
      constructor
      · intro hq
        obtain ⟨d, hd, hk, hp⟩ := diffPaths_mem.mp hq
        obtain ⟨d', hd', hk', hp'⟩ := missToRed (sizeOf X) X Y "" _ d le_rfl hwX hwY hd hk
        exact diffPaths_mem.mpr ⟨d', hd', hk', by rw [hp', hp]⟩
      · intro hq
        obtain ⟨d, hd, hk, hp⟩ := diffPaths_mem.mp hq
        obtain ⟨d', hd', hk', hp'⟩ := redToMiss (sizeOf Y) X Y "" _ d le_rfl hwX hwY
          hcompat hd hk
        exact diffPaths_mem.mpr ⟨d', hd', hk', by rw [hp', hp]⟩

/-- Witness for the amended C5: `X = {a: {m: 1}}` against `Y = {a: {}}` —
the missing path set of `compare(X, Y)` and the redundant path set of
`compare(Y, X)` agree at `a.m`. -/
theorem claim_C5_witness :
    ("a.m" ∈ diffPaths .missingField [⟨.missingField, "a.m"⟩]
      ↔ "a.m" ∈ diffPaths .redundantField [⟨.redundantField, "a.m"⟩]) := by
  have h0 : keyPath "" "a" = "a" := by
    simp only [keyPath, if_true]
    show (⟨fmtAux "a".data⟩ : String) = "a"
    congr 1
    show fmtAux ('a' :: []) = _
    rw [fmtAux_cons_none (by decide), fmtAux_nil]
  have h1 : keyPath "a" "m" = "a.m" := by
    simp only [keyPath]
    rw [if_neg (by decide)]
    show (⟨fmtAux ("a" ++ "." ++ "m").data⟩ : String) = "a.m"
    have hdd : ("a" ++ "." ++ "m").data = "a.m".data := by decide
    rw [hdd]
    congr 1
    show fmtAux ('a' :: '.' :: 'm' :: []) = _
    rw [fmtAux_cons_none (by decide), fmtAux_cons_none (by decide),
      fmtAux_cons_none (by decide), fmtAux_nil]
  have hM : compare_structures (.map [("a", .map [("m", .int 1)])]) (.map [("a", .map [])])
      "" optsM none none = .ok [⟨.missingField, "a.m"⟩] := by
    simp [compare_structures, compareRoot, entriesRoot, compareCore, compareDictEntries,
      compareLists,
      redundantScan, h0, h1, optsM, shouldExclude, defaultExclude, defaultConfig,
      splitDots, segMatchCode, lookupVal, isEquivalentValue, isSameType,
      typeOf, pyEq, Value.isCont, Value.isDict, Value.isList, wildSuffix] <;>
      first | rfl | decide
  have hR : compare_structures (.map [("a", .map [])]) (.map [("a", .map [("m", .int 1)])])
      "" optsR none none = .ok [⟨.redundantField, "a.m"⟩] := by
    simp [compare_structures, compareRoot, entriesRoot, compareCore, compareDictEntries,
      compareLists,
      redundantScan, h0, h1, optsR, shouldExclude, defaultExclude, defaultConfig,
      splitDots, segMatchCode, lookupVal, isEquivalentValue, isSameType,
      typeOf, pyEq, Value.isCont, Value.isDict, Value.isList, wildSuffix] <;>
      first | rfl | decide
  exact claim_C5 (.map [("a", .map [("m", .int 1)])]) (.map [("a", .map [])]) none
    [⟨.missingField, "a.m"⟩] [⟨.redundantField, "a.m"⟩] (by decide) (by decide)
    (by decide) hM hR "a.m"
